import Mathlib

/-!
Verification development for the histoprint terminal histogram renderer.

The definitions below are a shallow embedding of `histoprint/formatter.py`:
the cell compositor `Hixel`, the per-bin row formatter `BinFormatter`, and
the layout computations of `HistFormatter`.  Real arithmetic is embedded as
exact rational arithmetic (`ℚ`); Python integers are `ℤ`/`ℕ`; fallible
operations (the symbol check in `Hixel.add`, the ANSI color table lookup in
`Hixel.ansi_color_string`) return `Except HixelError`.
-/

namespace Histoprint

/-- Errors raised by the cell compositor: `invalidSymbol` models the
`ValueError` raised by `Hixel.add` for a symbol outside the allowed five,
`badColor` models the `KeyError` raised by the ANSI color table lookup in
`Hixel.ansi_color_string`. -/
inductive HixelError where
  | invalidSymbol : HixelError
  | badColor : HixelError
  deriving DecidableEq, Repr

/-- The five accepted mark symbols, Python `allowed = r" =|\/"`. -/
def allowedSymbols : List Char := [' ', '=', '|', '\\', '/']

/-- The diagonal symbols that go to the compose slot, Python `compose_chars = r"\/"`. -/
def composeChars : List Char := ['/', '\\']

/-- Base-glyph combination table of `Hixel.add` (Python `char_combinations`). -/
def char_combinations : Char → Char → Option Char
  | '|', '=' => some '#'
  | '=', '|' => some '#'
  | '#', '=' => some '#'
  | '#', '|' => some '#'
  | _, _ => none

/-- Compose-slot combination table of `Hixel.add` (Python `compose_combinations`). -/
def compose_combinations : Char → Char → Option Char
  | '/', '\\' => some 'X'
  | '\\', '/' => some 'X'
  | ' ', '\\' => some '\\'
  | ' ', '/' => some '/'
  | _, _ => none

/-- The state of one character cell (Python class `Hixel`). -/
structure Hixel where
  character : Char
  compose : Option Char
  fg_color : Char
  bg_color : Char
  use_color : Bool
  deriving DecidableEq, Repr

/-- Helper: `true` exactly on successful `Except` results. -/
def exceptOk {ε α : Type} : Except ε α → Bool
  | .ok _ => true
  | .error _ => false

/-- Trailing background update of `Hixel.add`: `if bg != "0": self.bg_color = bg`. -/
def Hixel.bgUpdate (h : Hixel) (bg : Char) : Hixel :=
  if bg ≠ '0' then { h with bg_color := bg } else h

/-- Matching-foreground combination step of `Hixel.add`: diagonals mutate the
compose slot through `compose_combinations` (unless it is `None`), other
symbols mutate the base glyph through `char_combinations`, defaulting to the
incoming symbol. -/
def Hixel.combineStep (h : Hixel) (ch : Char) : Hixel :=
  if ch ∈ composeChars then
    match h.compose with
    | none => h
    | some c0 => { h with compose := compose_combinations c0 ch }
  else
    { h with character := (char_combinations h.character ch).getD ch }

/-- Body of `Hixel.add`.  The Python method calls itself once after
overwriting the base glyph and foreground when the incoming foreground
differs and the symbol is nonspace; the recursion is bounded by `fuel`, and
the recursive call always takes the matching-foreground branch, so `fuel = 1`
reproduces the Python behaviour exactly (the `fuel = 0` overwrite case is
unreachable from `Hixel.add`). -/
def Hixel.addGo : ℕ → Hixel → Char → Char → Char → Except HixelError Hixel
  | 0, h, ch, fg, bg =>
    if ch ∈ allowedSymbols then
      (if fg = h.fg_color then Except.ok (h.combineStep ch)
       else Except.ok h).map (fun h2 => h2.bgUpdate bg)
    else .error .invalidSymbol
  | n + 1, h, ch, fg, bg =>
    if ch ∈ allowedSymbols then
      (if fg = h.fg_color then Except.ok (h.combineStep ch)
       else if ch ≠ ' ' then
         Hixel.addGo n { h with character := ' ', fg_color := fg } ch fg bg
       else Except.ok h).map (fun h2 => h2.bgUpdate bg)
    else .error .invalidSymbol

/-- Python `Hixel.add(char, fg, bg)`. -/
def Hixel.add (h : Hixel) (ch fg bg : Char) : Except HixelError Hixel :=
  Hixel.addGo 1 h ch fg bg

/-- Python `Hixel.__init__(char, fg, bg, use_color, compose)`: start from a
blank base glyph with the given colors and compose slot, then `add` the
initial mark (which necessarily takes the matching-foreground branch). -/
def mkHixel (ch fg bg : Char) (uc : Bool) (cp : Option Char) : Except HixelError Hixel :=
  Hixel.add { character := ' ', compose := cp, fg_color := fg, bg_color := bg, use_color := uc } ch fg bg

/-- ANSI SGR parameter for each of the 17 single-character color codes
(Python dict `subs` in `Hixel.ansi_color_string`); `none` models a `KeyError`. -/
def colorCode : Char → Option ℕ
  | 'k' => some 30
  | 'r' => some 31
  | 'g' => some 32
  | 'y' => some 33
  | 'b' => some 34
  | 'm' => some 35
  | 'c' => some 36
  | 'w' => some 37
  | '0' => some 39
  | 'K' => some 90
  | 'R' => some 91
  | 'G' => some 92
  | 'Y' => some 93
  | 'B' => some 94
  | 'M' => some 95
  | 'C' => some 96
  | 'W' => some 97
  | _ => none

/-- Python `str.swapcase` restricted to one character (the code applies it
to a one-character color string). -/
def swapCase (c : Char) : Char :=
  if c.isLower then c.toUpper else if c.isUpper then c.toLower else c

/-- Python `Hixel.ansi_color_string(fg, bg)`: the escape sequence
`ESC[<fg>;<bg+10>m` when color is enabled, the empty string otherwise. -/
def Hixel.ansi_color_string (h : Hixel) (fg bg : Char) : Except HixelError String :=
  if h.use_color then
    match colorCode fg, colorCode bg with
    | some f, some b => .ok ("\x1b[" ++ toString f ++ ";" ++ toString (b + 10) ++ "m")
    | _, _ => .error .badColor
  else
    .ok ""

/-- Unicode substitution table of `Hixel.substitute_character` (Python dict
`subs`, without its `None` entry, which is handled in
`substitute_character` itself). -/
def subsTable : Char → Option String
  | '|' => some "│"
  | '=' => some "═"
  | '#' => some "╪"
  | '\\' => some "⃥"
  | '/' => some "⃫"
  | 'X' => some "⃥⃫"
  | _ => none

/-- Python `Hixel.substitute_character(char, compose)`: substitute the base
glyph, then append the substituted compose glyph -- the empty string when the
compose slot is `None`, and the zero-width filler `U+034F` when the compose
slot holds a character with no substitution (such as the blank placeholder). -/
def substitute_character (ch : Char) (compose : Option Char) : String :=
  (subsTable ch).getD (String.singleton ch) ++
    match compose with
    | none => ""
    | some c => (subsTable c).getD "͏"

/-- Python `Hixel.render(reset)`. -/
def Hixel.render (h : Hixel) (reset : Bool := true) : Except HixelError String := do
  let body ←
    if h.character = ' ' ∧ (h.compose = some ' ' ∨ h.compose = none) ∧ h.bg_color ≠ '0' then do
      let a ← h.ansi_color_string h.bg_color (swapCase h.bg_color)
      pure (a ++ "█")
    else do
      let a ← h.ansi_color_string h.fg_color h.bg_color
      pure (a ++ substitute_character h.character h.compose)
  if reset then do
    let z ← h.ansi_color_string '0' '0'
    pure (body ++ z)
  else
    pure body

/-! Helper lemmas about the cell compositor. -/

theorem Hixel.bgUpdate_idem (h : Hixel) (bg : Char) :
    (h.bgUpdate bg).bgUpdate bg = h.bgUpdate bg := by
  unfold Hixel.bgUpdate
  split <;> simp

@[simp] theorem Hixel.bgUpdate_character (h : Hixel) (bg : Char) :
    (h.bgUpdate bg).character = h.character := by
  unfold Hixel.bgUpdate; split <;> rfl

@[simp] theorem Hixel.bgUpdate_fg_color (h : Hixel) (bg : Char) :
    (h.bgUpdate bg).fg_color = h.fg_color := by
  unfold Hixel.bgUpdate; split <;> rfl

@[simp] theorem Hixel.bgUpdate_compose (h : Hixel) (bg : Char) :
    (h.bgUpdate bg).compose = h.compose := by
  unfold Hixel.bgUpdate; split <;> rfl

@[simp] theorem Hixel.combineStep_fg_color (h : Hixel) (ch : Char) :
    (h.combineStep ch).fg_color = h.fg_color := by
  unfold Hixel.combineStep
  split
  · cases h.compose <;> rfl
  · rfl

/-- Closed form of `Hixel.add`: symbol check first, then either the
matching-foreground combination step, the overwrite-and-recombine step for a
distinct foreground and nonspace symbol, or a no-op, each followed by the
background update. -/
theorem Hixel.add_eq (h : Hixel) (ch fg bg : Char) :
    h.add ch fg bg =
      if ch ∈ allowedSymbols then
        if fg = h.fg_color then .ok ((h.combineStep ch).bgUpdate bg)
        else if ch ≠ ' ' then
          .ok ((Hixel.combineStep { h with character := ' ', fg_color := fg } ch).bgUpdate bg)
        else .ok (h.bgUpdate bg)
      else .error .invalidSymbol := by
  unfold Hixel.add
  unfold Hixel.addGo
  by_cases hall : ch ∈ allowedSymbols
  · rw [if_pos hall, if_pos hall]
    by_cases hfg : fg = h.fg_color
    · rw [if_pos hfg, if_pos hfg]
      rfl
    · rw [if_neg hfg, if_neg hfg]
      by_cases hsp : ch ≠ ' '
      · rw [if_pos hsp, if_pos hsp]
        unfold Hixel.addGo
        rw [if_pos hall]
        rw [if_pos (rfl : fg = ({ h with character := ' ', fg_color := fg } : Hixel).fg_color)]
        simp [Except.map, Hixel.bgUpdate_idem]
      · rw [if_neg hsp, if_neg hsp]
        rfl
  · rw [if_neg hall, if_neg hall]

/-- C1: when the incoming foreground differs from the cell's and the symbol is
nonspace, `add` produces exactly the state obtained by clearing the base
glyph, setting the foreground to the incoming one, and re-running `add`
(which then takes the matching-foreground combination path); in particular
the resulting foreground is the incoming one — the last distinct-color
nonspace mark wins the base layer. -/
theorem hixel_add_distinct_fg_overwrites (h : Hixel) (ch fg bg : Char)
    (hfg : fg ≠ h.fg_color) (hch : ch ≠ ' ') (hall : ch ∈ allowedSymbols) :
    h.add ch fg bg = Hixel.add { h with character := ' ', fg_color := fg } ch fg bg ∧
    (h.add ch fg bg).map Hixel.fg_color = .ok fg := by
  rw [Hixel.add_eq, Hixel.add_eq]
  rw [if_pos hall, if_pos hall, if_neg hfg, if_pos hch]
  rw [if_pos (rfl : fg = ({ h with character := ' ', fg_color := fg } : Hixel).fg_color)]
  exact ⟨rfl, by simp [Except.map]⟩

/-- C1 witness: a concrete distinct-color nonspace mark. -/
theorem hixel_add_distinct_fg_overwrites_witness :
    Hixel.add { character := '|', compose := none, fg_color := 'W', bg_color := '0', use_color := true } '=' 'g' 'r'
      = Hixel.add { character := ' ', compose := none, fg_color := 'g', bg_color := '0', use_color := true } '=' 'g' 'r' ∧
    (Hixel.add { character := '|', compose := none, fg_color := 'W', bg_color := '0', use_color := true } '=' 'g' 'r').map Hixel.fg_color = .ok 'g' :=
  hixel_add_distinct_fg_overwrites
    { character := '|', compose := none, fg_color := 'W', bg_color := '0', use_color := true }
    '=' 'g' 'r' (by decide) (by decide) (by decide)

/-- C5: `add` fails (with the invalid-symbol error) exactly when the symbol is
not one of the five allowed characters; the check is the first thing `add`
does, so the error does not depend on — and does not modify — the cell
state. -/
theorem hixel_add_error_iff (h : Hixel) (ch fg bg : Char) :
    h.add ch fg bg = .error .invalidSymbol ↔ ch ∉ allowedSymbols := by
  rw [Hixel.add_eq]
  by_cases hall : ch ∈ allowedSymbols
  · rw [if_pos hall]
    constructor
    · intro he
      by_cases hfg : fg = h.fg_color
      · rw [if_pos hfg] at he; exact absurd he (by simp)
      · rw [if_neg hfg] at he
        by_cases hsp : ch ≠ ' '
        · rw [if_pos hsp] at he; exact absurd he (by simp)
        · rw [if_neg hsp] at he; exact absurd he (by simp)
    · intro hc; exact absurd hall hc
  · rw [if_neg hall]
    exact ⟨fun _ => hall, fun _ => rfl⟩

/-- C7 counterexample: adding a space over a nonspace base glyph with matching
foreground clears the base glyph to a space instead of keeping the nonspace
symbol of the pair. -/
theorem hixel_space_clears_base :
    (Hixel.add { character := '|', compose := none, fg_color := 'W', bg_color := '0', use_color := true } ' ' 'W' '0').map Hixel.character = .ok ' ' ∧
    (' ' : Char) ≠ '|' := ⟨rfl, by decide⟩

/-- C7 as amended: with matching foreground and a non-diagonal symbol whose
pair with the current base glyph is absent from the combination table, the
base glyph afterwards is the incoming symbol — including an incoming space,
which clears a nonspace base rather than keeping it. -/
theorem hixel_add_unmatched_keeps_incoming (h : Hixel) (ch fg bg : Char)
    (hfg : fg = h.fg_color) (hch : ch = ' ' ∨ ch = '=' ∨ ch = '|')
    (hlk : char_combinations h.character ch = none) :
    (h.add ch fg bg).map Hixel.character = .ok ch := by
  have hall : ch ∈ allowedSymbols := by
    rcases hch with h1 | h1 | h1 <;> simp [h1, allowedSymbols]
  have hcc : ch ∉ composeChars := by
    rcases hch with h1 | h1 | h1 <;> simp [h1, composeChars]
  rw [Hixel.add_eq, if_pos hall, if_pos hfg]
  unfold Hixel.combineStep
  rw [if_neg hcc]
  simp [Except.map, hlk]

/-- C7 amended witness: a concrete space mark over a `|` base. -/
theorem hixel_add_unmatched_keeps_incoming_witness :
    (Hixel.add { character := '|', compose := some ' ', fg_color := 'W', bg_color := 'K', use_color := true } ' ' 'W' '0').map Hixel.character = .ok ' ' :=
  hixel_add_unmatched_keeps_incoming
    { character := '|', compose := some ' ', fg_color := 'W', bg_color := 'K', use_color := true }
    ' ' 'W' '0' rfl (Or.inl rfl) (by decide)

/-- C8: a cell whose base glyph is blank, whose compose slot holds no diagonal
mark, and whose background is non-transparent renders as a full solid block
styled with the background color as its foreground and the case-swapped
(complementary-brightness) variant of that color as its background — and with
color output disabled the emitted glyph is the bare block, never a space. -/
theorem hixel_render_blank_bg_block (h : Hixel) (reset : Bool)
    (h1 : h.character = ' ') (h2 : h.compose = some ' ' ∨ h.compose = none)
    (h3 : h.bg_color ≠ '0') :
    h.render reset = (do
      let a ← h.ansi_color_string h.bg_color (swapCase h.bg_color)
      let body := a ++ "█"
      if reset then do
        let z ← h.ansi_color_string '0' '0'
        pure (body ++ z)
      else
        pure body) ∧
    (h.use_color = false → h.render reset = .ok "█") := by
  constructor
  · unfold Hixel.render
    rw [if_pos ⟨h1, h2, h3⟩]
    cases h.ansi_color_string h.bg_color (swapCase h.bg_color) <;> rfl
  · intro huc
    unfold Hixel.render
    rw [if_pos ⟨h1, h2, h3⟩]
    unfold Hixel.ansi_color_string
    rw [huc]
    cases reset <;> rfl

/-- C8 witness: a concrete blank cell with bright-black background. -/
theorem hixel_render_blank_bg_block_witness :
    Hixel.render { character := ' ', compose := some ' ', fg_color := 'W', bg_color := 'K', use_color := true } true = (do
      let a ← Hixel.ansi_color_string { character := ' ', compose := some ' ', fg_color := 'W', bg_color := 'K', use_color := true } 'K' (swapCase 'K')
      let body := a ++ "█"
      do
        let z ← Hixel.ansi_color_string { character := ' ', compose := some ' ', fg_color := 'W', bg_color := 'K', use_color := true } '0' '0'
        pure (body ++ z)) ∧
    (({ character := ' ', compose := some ' ', fg_color := 'W', bg_color := 'K', use_color := true } : Hixel).use_color = false →
      Hixel.render { character := ' ', compose := some ' ', fg_color := 'W', bg_color := 'K', use_color := true } true = .ok "█") := by
  have := hixel_render_blank_bg_block
    { character := ' ', compose := some ' ', fg_color := 'W', bg_color := 'K', use_color := true }
    true rfl (Or.inl rfl) (by decide)
  simpa using this

/-- C9: adding a diagonal with matching foreground onto a compose slot whose
pair is absent from the compose table (for example `/` onto `/`, or any
diagonal onto `X`) sets the compose slot to `None`; a `None` compose slot
makes `substitute_character` append nothing, whereas the blank compose
placeholder appends the zero-width filler `U+034F`. -/
theorem hixel_compose_annihilation (h : Hixel) (c0 ch fg bg : Char)
    (hc : h.compose = some c0) (_hc0 : c0 = 'X' ∨ c0 = '/' ∨ c0 = '\\')
    (hch : ch = '/' ∨ ch = '\\') (hfg : fg = h.fg_color)
    (hlk : compose_combinations c0 ch = none) :
    h.add ch fg bg = .ok (Hixel.bgUpdate { h with compose := none } bg) ∧
    substitute_character h.character none
      = (subsTable h.character).getD (String.singleton h.character) ∧
    substitute_character h.character (some ' ')
      = (subsTable h.character).getD (String.singleton h.character) ++ "͏" := by
  have hall : ch ∈ allowedSymbols := by
    rcases hch with h1 | h1 <;> simp [h1, allowedSymbols]
  have hcc : ch ∈ composeChars := by
    rcases hch with h1 | h1 <;> simp [h1, composeChars]
  refine ⟨?_, by simp [substitute_character], by simp [substitute_character, subsTable]⟩
  rw [Hixel.add_eq, if_pos hall, if_pos hfg]
  unfold Hixel.combineStep
  rw [if_pos hcc, hc]
  simp [hlk]

/-- C9 witness: `/` added onto a cell whose compose slot already holds `/`. -/
theorem hixel_compose_annihilation_witness :
    Hixel.add { character := ' ', compose := some '/', fg_color := 'W', bg_color := '0', use_color := true } '/' 'W' '0'
      = .ok (Hixel.bgUpdate { character := ' ', compose := none, fg_color := 'W', bg_color := '0', use_color := true } '0') ∧
    substitute_character ' ' none = (subsTable ' ').getD (String.singleton ' ') ∧
    substitute_character ' ' (some ' ') = (subsTable ' ').getD (String.singleton ' ') ++ "͏" :=
  hixel_compose_annihilation
    { character := ' ', compose := some '/', fg_color := 'W', bg_color := '0', use_color := true }
    '/' '/' 'W' '0' rfl (Or.inr (Or.inl rfl)) (Or.inl rfl) rfl (by decide)

/-- C10: `add` validates only the symbol — any foreground/background
character is accepted; rendering always succeeds with color output disabled;
and a cell with a foreground outside the 17-symbol palette fails only at
render time, and only when color output is enabled (shown for cells with a
nonblank base glyph, which always take the color-lookup path for their own
colors). -/
theorem hixel_color_validation_deferred (h : Hixel) (ch fg bg : Char) (r : Bool)
    (hall : ch ∈ allowedSymbols) :
    exceptOk (h.add ch fg bg) = true ∧
    (h.use_color = false → exceptOk (h.render r) = true) ∧
    (h.use_color = true → h.character ≠ ' ' → colorCode h.fg_color = none →
      h.render r = .error .badColor) := by
  refine ⟨?_, ?_, ?_⟩
  · rw [Hixel.add_eq, if_pos hall]
    by_cases hfg : fg = h.fg_color
    · rw [if_pos hfg]; rfl
    · rw [if_neg hfg]
      by_cases hsp : ch ≠ ' '
      · rw [if_pos hsp]; rfl
      · rw [if_neg hsp]; rfl
  · intro huc
    have hfalse : ¬ (h.use_color = true) := by simp [huc]
    unfold Hixel.render Hixel.ansi_color_string
    by_cases hcond : h.character = ' ' ∧ (h.compose = some ' ' ∨ h.compose = none) ∧ h.bg_color ≠ '0'
    · rw [if_pos hcond, if_neg hfalse, if_neg hfalse]
      cases r <;> rfl
    · rw [if_neg hcond, if_neg hfalse, if_neg hfalse]
      cases r <;> rfl
  · intro huc hbase hfgc
    unfold Hixel.render
    rw [if_neg (by simp [hbase])]
    unfold Hixel.ansi_color_string
    rw [huc, hfgc]
    cases r <;> rfl

/-- C10 witness: a cell carrying the out-of-palette foreground `z` was
accepted by `add` and fails only at color-enabled render time. -/
theorem hixel_color_validation_deferred_witness :
    exceptOk (Hixel.add { character := '|', compose := none, fg_color := 'z', bg_color := '0', use_color := true } '=' 'z' 'q') = true ∧
    (({ character := '|', compose := none, fg_color := 'z', bg_color := '0', use_color := true } : Hixel).use_color = false →
      exceptOk (Hixel.render { character := '|', compose := none, fg_color := 'z', bg_color := '0', use_color := true } true) = true) ∧
    (({ character := '|', compose := none, fg_color := 'z', bg_color := '0', use_color := true } : Hixel).use_color = true →
      ({ character := '|', compose := none, fg_color := 'z', bg_color := '0', use_color := true } : Hixel).character ≠ ' ' →
      colorCode ({ character := '|', compose := none, fg_color := 'z', bg_color := '0', use_color := true } : Hixel).fg_color = none →
      Hixel.render { character := '|', compose := none, fg_color := 'z', bg_color := '0', use_color := true } true = .error .badColor) :=
  hixel_color_validation_deferred
    { character := '|', compose := none, fg_color := 'z', bg_color := '0', use_color := true }
    '=' 'z' 'q' true (by decide)

/-! Per-bin row formatter (Python class `BinFormatter`).

Python floats are embedded as exact rationals; the Python format string
`tick_format` (applied to floats via `str.format`) is embedded as a function
field `tickFormat : ℚ → String` together with the stored
`tick_format_width`, mirroring how the class stores both. -/

structure BinFormatter where
  scale : ℚ
  count_area : Bool
  tickFormat : ℚ → String
  tick_format_width : ℕ
  tick_mark : String
  no_tick_mark : String
  print_top_edge : Bool
  symbols : List Char
  fg_colors : List Char
  bg_colors : List Char
  stack : Bool
  use_color : Bool

/-- String of `n` spaces (Python `" " * n`). -/
def spacesStr (n : ℕ) : String := String.mk (List.replicate n ' ')

/-- Python `BinFormatter.tick(edge)`. -/
def BinFormatter.tick (bf : BinFormatter) (edge : ℚ) : String :=
  bf.tickFormat edge ++ bf.tick_mark

/-- Python `BinFormatter.no_tick()`. -/
def BinFormatter.noTick (bf : BinFormatter) : String :=
  spacesStr bf.tick_format_width ++ bf.no_tick_mark

/-- Scale actually used by `BinFormatter.format_bin`: the stored scale times
the bin width in count-area mode, with the zero guard `if scale == 0:
scale = 1.0`. -/
def BinFormatter.effectiveScale (bf : BinFormatter) (width : ℤ) : ℚ :=
  let s := bf.scale * (if bf.count_area then (width : ℚ) else 1)
  if s = 0 then 1 else s

/-- Bin heights in characters, Python `[int(c // scale) for c in counts]`
(the float floor-division result is integral, so `int` is exact floor). -/
def BinFormatter.heightsOf (bf : BinFormatter) (counts : List ℚ) (width : ℤ) : List ℤ :=
  counts.map (fun c => ⌊c / bf.effectiveScale width⌋)

/-- Compose-awareness decision of `format_bin`: blank compose placeholder if
any of the first `len(counts)` symbols is a diagonal, else `None`. -/
def BinFormatter.composeOf (bf : BinFormatter) (n : ℕ) : Option Char :=
  if (bf.symbols.take n).any (fun s => s ∈ composeChars) then some ' ' else none

/-- Indexing into the cycled symbol/color sequences (Python
`itertools.cycle`); the lists are nonempty in any state reachable through
the constructor, which replaces empty strings by one-element defaults. -/
def cycleGet (l : List Char) (i : ℕ) : Char := l.getD (i % l.length) ' '

/-- One series entry per count: its height and its cycled symbol,
foreground, and background (the `zip` of `format_bin`, which truncates the
infinite cycles at `len(heights) = len(counts)`). -/
def BinFormatter.seriesOf (bf : BinFormatter) (heights : List ℤ) : List (ℤ × Char × Char × Char) :=
  heights.enum.map (fun p => (p.2, cycleGet bf.symbols p.1, cycleGet bf.fg_colors p.1, cycleGet bf.bg_colors p.1))

/-- Sequential effectful map over a list in the `Except` monad, evaluating
left to right and stopping at the first error (the order in which the Python
loops raise). -/
def mapME {ε α β : Type} (f : α → Except ε β) : List α → Except ε (List β)
  | [] => .ok []
  | a :: as =>
    match f a with
    | .error e => .error e
    | .ok b =>
      match mapME f as with
      | .error e => .error e
      | .ok bs => .ok (b :: bs)

theorem exBind_ok {ε α β : Type} (a : α) (k : α → Except ε β) :
    (Except.ok a >>= k) = k a := rfl

theorem exBind_error {ε α β : Type} (e : ε) (k : α → Except ε β) :
    ((Except.error e : Except ε α) >>= k) = .error e := rfl

theorem exMap_ok {ε α β : Type} (g : α → β) (a : α) :
    (g <$> (Except.ok a : Except ε α)) = .ok (g a) := rfl

theorem exMap_error {ε α β : Type} (g : α → β) (e : ε) :
    (g <$> (Except.error e : Except ε α)) = .error e := rfl

theorem exPure {ε α : Type} (a : α) : (pure a : Except ε α) = .ok a := rfl

/-- Length of the Python slice `line[:h]` for a list of length `len` and a
possibly negative Python int `h`. -/
def pySliceLen (n : ℤ) (len : ℕ) : ℕ :=
  if 0 ≤ n then min n.toNat len else len - (-n).toNat

/-- One iteration of the series loop of `format_bin` over the current row
`line`: stack mode appends `h` fresh cells; overlay mode composites the mark
onto existing cells and extends the row when the series is taller. -/
def buildLineStep (uc : Bool) (cp : Option Char) (stack : Bool)
    (line : List Hixel) : ℤ × Char × Char × Char → Except HixelError (List Hixel)
  | (hh, s, fg, bg) =>
    if hh ≠ 0 then
      if stack then
        if 0 < hh then do
          let hx ← mkHixel s fg bg uc cp
          pure (line ++ List.replicate hh.toNat hx)
        else
          pure line
      else if hh > (line.length : ℤ) then do
        let line2 ← mapME (fun x => x.add s fg bg) line
        let hx ← mkHixel s fg bg uc cp
        pure (line2 ++ List.replicate (hh.toNat - line.length) hx)
      else do
        let k := pySliceLen hh line.length
        let pre ← mapME (fun x => x.add s fg bg) (line.take k)
        pure (pre ++ line.drop k)
    else
      pure line

/-- The full series loop of `format_bin`, building one row of cells. -/
def buildLine (uc : Bool) (cp : Option Char) (stack : Bool) :
    List (ℤ × Char × Char × Char) → List Hixel → Except HixelError (List Hixel)
  | [], line => pure line
  | sr :: rest, line => do
      let line2 ← buildLineStep uc cp stack line sr
      buildLine uc cp stack rest line2

/-- Concatenation of a list of strings (the `+=` accumulation used by
`format_bin` and `format_histogram`). -/
def strConcat : List String → String
  | [] => ""
  | s :: r => s ++ strConcat r

/-- One output line of `format_bin`: axis part (tick on the designated line,
blank axis padding elsewhere), then the rendered cells, then a newline. -/
def BinFormatter.formatBinLine (bf : BinFormatter) (tickTop tickBot : String)
    (series : List (ℤ × Char × Char × Char)) (cp : Option Char) (width : ℤ)
    (i : ℕ) : Except HixelError String := do
  let axis :=
    if bf.print_top_edge ∧ i = 0 then tickTop
    else if ¬bf.print_top_edge ∧ (i : ℤ) = width - 1 then tickBot
    else bf.noTick
  let line ← buildLine bf.use_color cp bf.stack series []
  let rendered ← mapME (fun hx => hx.render true) line
  pure (axis ++ strConcat rendered ++ "\n")

/-- Core of `format_bin` after the numeric quantities are computed: loop over
the `width` output lines (Python `range(width)`, empty when `width ≤ 0`). -/
def BinFormatter.formatBinCore (bf : BinFormatter) (tickTop tickBot : String)
    (heights : List ℤ) (nCounts : ℕ) (width : ℤ) : Except HixelError String := do
  let cp := bf.composeOf nCounts
  let series := bf.seriesOf heights
  let pieces ← mapME (bf.formatBinLine tickTop tickBot series cp width) (List.range width.toNat)
  pure (strConcat pieces)

/-- Python `BinFormatter.format_bin(top, bottom, counts, width)`. -/
def BinFormatter.formatBin (bf : BinFormatter) (top bottom : ℚ) (counts : List ℚ)
    (width : ℤ) : Except HixelError String :=
  bf.formatBinCore (bf.tick top) (bf.tick bottom) (bf.heightsOf counts width) counts.length width

/-- C3: when the symbol scale set by `format_histogram` (peak over available
columns, times 0.999) makes the scale used by `format_bin` vanish, the zero
guard substitutes the scale 1, so every bin height is computed as a floor
divided by 1 — no height computation divides by the degenerate scale, and the
recovery is a local substitution, not an error path. -/
theorem formatbin_scale_zero_guard (maxC : ℚ) (hw : ℤ) (bf : BinFormatter)
    (w : ℤ) (counts : List ℚ)
    (_hscale : bf.scale = maxC / (hw : ℚ) * (999/1000))
    (h0 : bf.scale * (if bf.count_area then (w : ℚ) else 1) = 0) :
    bf.effectiveScale w = 1 ∧
    bf.effectiveScale w ≠ 0 ∧
    bf.heightsOf counts w = counts.map (fun c => ⌊c⌋) := by
  have he : bf.effectiveScale w = 1 := by
    unfold BinFormatter.effectiveScale
    rw [if_pos h0]
  refine ⟨he, by rw [he]; exact one_ne_zero, ?_⟩
  unfold BinFormatter.heightsOf
  rw [he]
  simp

/-- C3 witness: an all-zero histogram (peak 0) with a concrete bin. -/
theorem formatbin_scale_zero_guard_witness :
    BinFormatter.effectiveScale
      { scale := 0, count_area := true, tickFormat := fun _ => "", tick_format_width := 8,
        tick_mark := "_", no_tick_mark := " ", print_top_edge := false,
        symbols := [' ', '|'], fg_colors := ['W'], bg_colors := ['K'],
        stack := false, use_color := true } 3 = 1 ∧
    BinFormatter.effectiveScale
      { scale := 0, count_area := true, tickFormat := fun _ => "", tick_format_width := 8,
        tick_mark := "_", no_tick_mark := " ", print_top_edge := false,
        symbols := [' ', '|'], fg_colors := ['W'], bg_colors := ['K'],
        stack := false, use_color := true } 3 ≠ 0 ∧
    BinFormatter.heightsOf
      { scale := 0, count_area := true, tickFormat := fun _ => "", tick_format_width := 8,
        tick_mark := "_", no_tick_mark := " ", print_top_edge := false,
        symbols := [' ', '|'], fg_colors := ['W'], bg_colors := ['K'],
        stack := false, use_color := true } [7/2] 3 = ([7/2] : List ℚ).map (fun c => ⌊c⌋) :=
  formatbin_scale_zero_guard 0 5
    { scale := 0, count_area := true, tickFormat := fun _ => "", tick_format_width := 8,
      tick_mark := "_", no_tick_mark := " ", print_top_edge := false,
      symbols := [' ', '|'], fg_colors := ['W'], bg_colors := ['K'],
      stack := false, use_color := true }
    3 [7/2] (by norm_num) (by norm_num)

/-! Float-special values of the symbol scale.  `format_histogram` computes
`symbol_scale = max_c / hist_width` in IEEE arithmetic, so a zero
`hist_width` (reachable when `columns` equals the axis width) does not raise:
numpy division by zero yields `±inf` for a nonzero peak and `nan` for a zero
peak, and the subsequent `* 0.999` preserves these.  The `if scale == 0`
guard of `format_bin` compares unequal to `inf` and `nan`, so only an
exactly-zero finite scale is replaced by 1. -/

/-- Value of the float expression `max_c / hist_width * 0.999`: an exact
rational when finite, or one of the IEEE specials `±inf`/`nan`. -/
inductive FVal where
  | fin (q : ℚ)
  | posInf
  | negInf
  | nan
deriving DecidableEq

/-- Python `max_c / hist_width * 0.999` (formatter.py lines 452-453),
keeping the IEEE result of a zero `hist_width`. -/
def binScaleF (maxC : ℚ) (hw : ℤ) : FVal :=
  if hw = 0 then
    if maxC = 0 then .nan
    else if maxC < 0 then .negInf
    else .posInf
  else .fin (maxC / (hw : ℚ) * (999/1000))

/-- `scale *= width` of `format_bin` (count-area mode) on a possibly
non-finite scale: `inf * 0 = nan`, and the sign flips with the factor. -/
def FVal.mulInt : FVal → ℤ → FVal
  | .fin q, w => .fin (q * w)
  | .posInf, w => if w = 0 then .nan else if w < 0 then .negInf else .posInf
  | .negInf, w => if w = 0 then .nan else if w < 0 then .posInf else .negInf
  | .nan, _ => .nan

/-- The `if scale == 0: scale = 1.0` guard of `format_bin` on a possibly
non-finite scale: `inf` and `nan` compare unequal to `0`, so only an
exactly-zero finite scale is replaced. -/
def effectiveScaleF (ca : Bool) (v : FVal) (w : ℤ) : FVal :=
  let s := if ca then v.mulInt w else v
  if s = .fin 0 then .fin 1 else s

/-- Python `int(c // scale)` for a possibly non-finite float scale: exact
floor for a finite nonzero scale; an infinite scale floors the underflowed
quotient (`0` when the signs agree, `-1` otherwise, matching CPython's
`float.__floordiv__`); a zero divisor raises `ZeroDivisionError` and a `nan`
quotient makes `int(nan)` raise `ValueError` (both modeled as `none`). -/
def floorDivInt (c : ℚ) : FVal → Option ℤ
  | .fin q => if q = 0 then none else some ⌊c / q⌋
  | .posInf => some (if c < 0 then -1 else 0)
  | .negInf => some (if 0 < c then -1 else 0)
  | .nan => none

/-- Sequential option-valued map (the list comprehension
`[int(c // scale) for c in counts]`, which raises at the first bad entry). -/
def mapMO {α β : Type} (f : α → Option β) : List α → Option (List β)
  | [] => some []
  | a :: as =>
    match f a with
    | none => none
    | some b =>
      match mapMO f as with
      | none => none
      | some bs => some (b :: bs)

/-- The height list of `format_bin` with a possibly non-finite scale. -/
def heightsFOf (ca : Bool) (v : FVal) (counts : List ℚ) (w : ℤ) : Option (List ℤ) :=
  mapMO (fun c => floorDivInt c (effectiveScaleF ca v w)) counts

/-- C3 counterexample: at `hist_width = 0` the symbol scale is non-finite
and the `scale == 0` guard does not fire.  With a positive peak the scale is
`+inf`, the scale actually used is `+inf` (not 1), and every height
collapses to 0 instead of `⌊c⌋`; with a zero peak the scale is `nan` and the
height computation raises (`int(nan)`), surfacing an error to the caller. -/
theorem formatbin_nonfinite_scale :
    binScaleF 5 0 = FVal.posInf ∧
    effectiveScaleF true (binScaleF 5 0) 1 = FVal.posInf ∧
    heightsFOf true (binScaleF 5 0) [5] 1 = some [0] ∧
    ¬ heightsFOf true (binScaleF 5 0) [5] 1 = some [⌊(5 : ℚ)⌋] ∧
    binScaleF 0 0 = FVal.nan ∧
    heightsFOf true (binScaleF 0 0) [5] 1 = none := by
  have h1 : binScaleF 5 0 = FVal.posInf := by
    unfold binScaleF
    rw [if_pos rfl, if_neg (by norm_num : ¬(5 : ℚ) = 0), if_neg (by norm_num : ¬(5 : ℚ) < 0)]
  have h2 : effectiveScaleF true (binScaleF 5 0) 1 = FVal.posInf := by
    rw [h1]
    show (if FVal.posInf.mulInt 1 = FVal.fin 0 then FVal.fin 1 else FVal.posInf.mulInt 1)
      = FVal.posInf
    rw [show FVal.posInf.mulInt 1 = FVal.posInf from by decide]
    rw [if_neg (by decide : ¬(FVal.posInf = FVal.fin 0))]
  have hf5 : floorDivInt 5 (effectiveScaleF true (binScaleF 5 0) 1) = some 0 := by
    rw [h2]
    unfold floorDivInt
    rw [if_neg (by norm_num : ¬(5 : ℚ) < 0)]
  have h3 : heightsFOf true (binScaleF 5 0) [5] 1 = some [0] := by
    unfold heightsFOf
    simp only [mapMO, hf5]
  have h5 : binScaleF 0 0 = FVal.nan := by
    unfold binScaleF
    rw [if_pos rfl, if_pos rfl]
  have h6 : heightsFOf true (binScaleF 0 0) [5] 1 = none := by
    have hs : effectiveScaleF true (binScaleF 0 0) 1 = FVal.nan := by
      rw [h5]
      show (if FVal.nan.mulInt 1 = FVal.fin 0 then FVal.fin 1 else FVal.nan.mulInt 1)
        = FVal.nan
      decide
    unfold heightsFOf
    simp only [mapMO, hs]
    rfl
  refine ⟨h1, h2, h3, ?_, h5, h6⟩
  rw [h3, show ⌊(5 : ℚ)⌋ = 5 from by norm_num]
  decide

/-- C3 as amended: for a nonzero `hist_width` the computed symbol scale is a
finite number; when it (adjusted by the bin width in count-area mode) is
exactly zero, the `scale == 0` guard of `format_bin` substitutes 1 and every
height becomes a plain floor, with no error surfaced.  The non-finite scales
arising from `hist_width = 0` pass the guard unchanged (see
`formatbin_nonfinite_scale`). -/
theorem formatbin_scale_zero_guard_finite (maxC : ℚ) (hw : ℤ) (hhw : hw ≠ 0)
    (ca : Bool) (w : ℤ) (counts : List ℚ)
    (h0 : maxC / (hw : ℚ) * (999/1000) * (if ca then (w : ℚ) else 1) = 0) :
    effectiveScaleF ca (binScaleF maxC hw) w = .fin 1 ∧
    heightsFOf ca (binScaleF maxC hw) counts w = some (counts.map (fun c => ⌊c⌋)) := by
  have hq : binScaleF maxC hw = .fin (maxC / (hw : ℚ) * (999/1000)) := by
    unfold binScaleF
    rw [if_neg hhw]
  have hs : effectiveScaleF ca (binScaleF maxC hw) w = .fin 1 := by
    rw [hq]
    cases ca with
    | true =>
      have h0a : maxC / (hw : ℚ) * (999/1000) * (w : ℚ) = 0 := by simpa using h0
      show (if FVal.fin (maxC / (hw : ℚ) * (999/1000) * (w : ℚ)) = FVal.fin 0 then FVal.fin 1
        else FVal.fin (maxC / (hw : ℚ) * (999/1000) * (w : ℚ))) = FVal.fin 1
      rw [h0a, if_pos rfl]
    | false =>
      have h0a : maxC / (hw : ℚ) * (999/1000) = 0 := by simpa using h0
      show (if FVal.fin (maxC / (hw : ℚ) * (999/1000)) = FVal.fin 0 then FVal.fin 1
        else FVal.fin (maxC / (hw : ℚ) * (999/1000))) = FVal.fin 1
      rw [h0a, if_pos rfl]
  refine ⟨hs, ?_⟩
  unfold heightsFOf
  rw [show (fun c => floorDivInt c (effectiveScaleF ca (binScaleF maxC hw) w))
    = (fun c => floorDivInt c (FVal.fin 1)) from by rw [hs]]
  induction counts with
  | nil => rfl
  | cons c r ih =>
    have hfc : floorDivInt c (FVal.fin 1) = some ⌊c⌋ := by
      show (if (1 : ℚ) = 0 then none else some ⌊c / 1⌋) = some ⌊c⌋
      rw [if_neg one_ne_zero, div_one]
    simp only [mapMO, hfc, ih, List.map]

/-- C3 witness: zero peak over five columns gives a zero finite scale; the
guard substitutes 1 and the height of count `7/2` is its floor. -/
theorem formatbin_scale_zero_guard_finite_witness :
    (5 : ℤ) ≠ 0 ∧
    ((0 : ℚ) / ((5 : ℤ) : ℚ) * (999/1000) * (if true then ((3 : ℤ) : ℚ) else 1) = 0) ∧
    effectiveScaleF true (binScaleF 0 5) 3 = .fin 1 ∧
    heightsFOf true (binScaleF 0 5) [7/2] 3 = some (([7/2] : List ℚ).map (fun c => ⌊c⌋)) :=
  ⟨by decide, by norm_num,
    formatbin_scale_zero_guard_finite 0 5 (by decide) true 3 [7/2] (by norm_num)⟩

/-- Helper for C4: with a single series and an empty row, one step of the
stack-mode and overlay-mode constructions agree. -/
theorem buildLineStep_single (uc : Bool) (cp : Option Char) (hh : ℤ) (s fg bg : Char) :
    buildLineStep uc cp true [] (hh, s, fg, bg) = buildLineStep uc cp false [] (hh, s, fg, bg) := by
  unfold buildLineStep
  by_cases h0 : hh = 0
  · simp [h0]
  · by_cases hpos : 0 < hh
    · cases hmk : mkHixel s fg bg uc cp with
      | error e => simp [h0, hpos, mapME, hmk, exBind_ok, exBind_error, exMap_ok, exMap_error, exPure]
      | ok hx => simp [h0, hpos, mapME, hmk, exBind_ok, exBind_error, exMap_ok, exMap_error, exPure]
    · have hneg : ¬ (0:ℤ) ≤ hh := by omega
      simp [h0, hpos, hneg, mapME, pySliceLen, exBind_ok, exBind_error, exMap_ok, exMap_error, exPure]

/-- Helper for C4: with a single series the stack-mode and overlay-mode row
constructions agree. -/
theorem buildLine_single (uc : Bool) (cp : Option Char) (x : ℤ × Char × Char × Char) :
    buildLine uc cp true [x] [] = buildLine uc cp false [x] [] := by
  rcases x with ⟨hh, s, fg, bg⟩
  unfold buildLine
  rw [buildLineStep_single]
  cases buildLineStep uc cp false [] (hh, s, fg, bg) <;> rfl

/-- Helper for C4 at the `formatBinCore` level: one series, one height. -/
theorem formatBinCore_single (bf : BinFormatter) (tt tb : String) (hgt w : ℤ) :
    BinFormatter.formatBinCore { bf with stack := true } tt tb [hgt] 1 w =
    BinFormatter.formatBinCore { bf with stack := false } tt tb [hgt] 1 w := by
  unfold BinFormatter.formatBinCore
  have hF : BinFormatter.formatBinLine { bf with stack := true } tt tb
        (BinFormatter.seriesOf { bf with stack := true } [hgt])
        (BinFormatter.composeOf { bf with stack := true } 1) w
      = BinFormatter.formatBinLine { bf with stack := false } tt tb
        (BinFormatter.seriesOf { bf with stack := false } [hgt])
        (BinFormatter.composeOf { bf with stack := false } 1) w := by
    funext i
    unfold BinFormatter.formatBinLine
    dsimp only [BinFormatter.seriesOf, BinFormatter.composeOf, BinFormatter.noTick]
    rw [show (List.enum [hgt]) = [(0, hgt)] from rfl]
    dsimp only [List.map]
    rw [buildLine_single]
  exact congrArg (fun F => do
    let pieces ← mapME F (List.range w.toNat)
    pure (strConcat pieces)) hF

/-- C4: for exactly one series, stack mode and overlay mode render a bin to
identical output strings (all other configuration equal). -/
theorem formatBin_single_series_stack_eq_overlay (bf : BinFormatter)
    (top bottom c : ℚ) (w : ℤ) :
    BinFormatter.formatBin { bf with stack := true } top bottom [c] w =
    BinFormatter.formatBin { bf with stack := false } top bottom [c] w :=
  formatBinCore_single bf (bf.tick top) (bf.tick bottom)
    ⌊c / bf.effectiveScale w⌋ w

/-! Layout engine (Python class `HistFormatter`): row-budget allocation. -/

/-- Usable rows computed by `HistFormatter.__init__`: the configured line
budget less one line for the first tick, one more if a title is present, four
more for a summary, or one more for a legend when any label is nonempty. -/
def histUsableLines (lines : ℤ) (title : String) (summary : Bool)
    (labels : List String) : ℤ :=
  let h1 := lines - 1
  let h2 := if 0 < title.length then h1 - 1 else h1
  if summary then h2 - 4
  else if labels.any (fun lab => decide (0 < lab.length)) then h2 - 1
  else h2

/-- Bin widths, numpy `edges[1:] - edges[:-1]`. -/
def binWidths (edges : List ℚ) : List ℚ :=
  List.zipWith (fun a b => b - a) edges edges.tail

/-- Maximum of a list of rationals (numpy `np.max`; meaningful for nonempty
lists, where the starting value is the list head). -/
def listMax (l : List ℚ) : ℚ := l.foldr max (l.headD 0)

/-- Line scale of `HistFormatter.__init__`: axis range over usable rows times
the 0.999 anti-overshoot factor when width-proportional scaling is on, else
the widest bin; a zero result is replaced by 1. -/
def lineScaleOf (edges : List ℚ) (scaleBinWidth : Bool) (usable : ℤ) : ℚ :=
  let ls :=
    if scaleBinWidth then
      (edges.getLastD 0 - edges.headD 0) / (usable : ℚ) * (999/1000)
    else
      listMax (binWidths edges)
  if ls = 0 then 1 else ls

/-- Per-bin line counts of `HistFormatter.__init__`: floor of width over line
scale, with numpy `where(x, x, 1)` replacing zero entries (and only zero
entries) by 1. -/
def binLinesOf (edges : List ℚ) (ls : ℚ) : List ℤ :=
  (binWidths edges).map (fun w => if ⌊w / ls⌋ = 0 then 1 else ⌊w / ls⌋)

/-- Telescoping: the last edge is the first edge plus the sum of the widths. -/
theorem getLastD_eq_head_add_sum (a : ℚ) (t : List ℚ) :
    (a :: t).getLastD 0 = a + (binWidths (a :: t)).sum := by
  induction t generalizing a with
  | nil => simp [binWidths]
  | cons b t' ih =>
    have h1 : (a :: b :: t').getLastD 0 = (b :: t').getLastD 0 := by
      cases t' <;> rfl
    have h2 : binWidths (a :: b :: t') = (b - a) :: binWidths (b :: t') := rfl
    rw [h1, ih b, h2]
    simp
    ring

/-- The fold used by `listMax` never drops below its starting value. -/
theorem foldr_max_ge_init (init : ℚ) (l : List ℚ) : init ≤ l.foldr max init := by
  induction l with
  | nil => exact le_refl _
  | cons a t ih => exact le_trans ih (le_max_right a _)

/-- C2 counterexample: with a configured line budget of 0 (no title, no
summary, empty label) over strictly increasing edges `[0, 5, 10]`, the usable
row count is `-1`, the line scale becomes negative, and both bins receive a
row budget of `-1` — not the minimum of 1 the claim asserts. -/
theorem binlines_negative_budget :
    binLinesOf [0, 5, 10]
      (lineScaleOf [0, 5, 10] true (histUsableLines 0 "" false [""])) = [-1, -1] ∧
    (binLinesOf [0, 5, 10]
      (lineScaleOf [0, 5, 10] true (histUsableLines 0 "" false [""]))).all
        (fun b => decide (1 ≤ b)) = false := by
  have h1 : histUsableLines 0 "" false [""] = -1 := by decide
  have h2 : lineScaleOf [0, 5, 10] true (-1) = -999/100 := by
    unfold lineScaleOf
    norm_num
  have h3 : ⌊(5 : ℚ) / (-999/100)⌋ = -1 := by
    rw [Int.floor_eq_iff]
    constructor
    · norm_num
    · norm_num
  have h4 : binLinesOf [0, 5, 10] (-999/100) = [-1, -1] := by
    unfold binLinesOf binWidths
    simp only [List.zipWith, List.tail_cons, List.map]
    norm_num [h3]
  rw [h1, h2, h4]
  constructor
  · rfl
  · decide

/-- C2 as amended: the usable row count is the configured line budget minus 1
for the axis header, minus 1 for a nonempty title, minus 4 for a summary, or
minus 1 for a legend when no summary was requested but some label is
nonempty; and whenever the usable row count is positive and the edges are
nondecreasing (so all bin widths are nonnegative), the line scale is
positive and every bin's row budget equals `max ⌊binWidth / lineScale⌋ 1 ≥ 1`.
Without these provisos the numpy `where(x, x, 1)` only replaces a budget of
exactly 0, so negative budgets (from a nonpositive line budget or decreasing
edges) survive. -/
theorem hist_layout_row_budget (lines : ℤ) (title : String) (summary : Bool)
    (labels : List String) (edges : List ℚ) (sbw : Bool)
    (husable : 0 < histUsableLines lines title summary labels)
    (hmono : ∀ w ∈ binWidths edges, 0 ≤ w) :
    histUsableLines lines title summary labels =
      lines - 1 - (if 0 < title.length then 1 else 0) -
        (if summary then 4
         else if labels.any (fun lab => decide (0 < lab.length)) then 1 else 0) ∧
    0 < lineScaleOf edges sbw (histUsableLines lines title summary labels) ∧
    binLinesOf edges (lineScaleOf edges sbw (histUsableLines lines title summary labels)) =
      (binWidths edges).map
        (fun w => max ⌊w / lineScaleOf edges sbw (histUsableLines lines title summary labels)⌋ 1) ∧
    (binLinesOf edges (lineScaleOf edges sbw (histUsableLines lines title summary labels))).all
      (fun b => decide (1 ≤ b)) = true := by
  have hform : histUsableLines lines title summary labels =
      lines - 1 - (if 0 < title.length then 1 else 0) -
        (if summary then 4
         else if labels.any (fun lab => decide (0 < lab.length)) then 1 else 0) := by
    unfold histUsableLines
    dsimp only
    split_ifs <;> omega
  have hls : 0 < lineScaleOf edges sbw (histUsableLines lines title summary labels) := by
    unfold lineScaleOf
    have hnn : (0 : ℚ) ≤
        (if sbw then
          (edges.getLastD 0 - edges.headD 0) /
            ((histUsableLines lines title summary labels : ℤ) : ℚ) * (999/1000)
        else listMax (binWidths edges)) := by
      split_ifs with hsbw
      · have hrange : (0 : ℚ) ≤ edges.getLastD 0 - edges.headD 0 := by
          cases edges with
          | nil => simp
          | cons a t =>
            rw [getLastD_eq_head_add_sum a t]
            have : (0 : ℚ) ≤ (binWidths (a :: t)).sum :=
              List.sum_nonneg (fun w hw => hmono w hw)
            simp only [List.headD_cons]
            linarith
        have hu : (0 : ℚ) < ((histUsableLines lines title summary labels : ℤ) : ℚ) := by
          exact_mod_cast husable
        positivity
      · cases hbw : binWidths edges with
        | nil => simp [listMax, hbw]
        | cons w t =>
          have hw0 : (0 : ℚ) ≤ w := hmono w (by rw [hbw]; exact List.mem_cons_self w t)
          have hfold : w ≤ listMax (w :: t) := foldr_max_ge_init w (w :: t)
          exact le_trans hw0 hfold
    set ls0 := (if sbw then
          (edges.getLastD 0 - edges.headD 0) /
            ((histUsableLines lines title summary labels : ℤ) : ℚ) * (999/1000)
        else listMax (binWidths edges)) with hls0
    by_cases hz : ls0 = 0
    · rw [if_pos hz]; exact one_pos
    · rw [if_neg hz]; exact lt_of_le_of_ne hnn (Ne.symm hz)
  refine ⟨hform, hls, ?_, ?_⟩
  · unfold binLinesOf
    apply List.map_congr_left
    intro w hw
    have hq : 0 ≤ ⌊w / lineScaleOf edges sbw (histUsableLines lines title summary labels)⌋ := by
      apply Int.floor_nonneg.mpr
      exact div_nonneg (hmono w hw) (le_of_lt hls)
    by_cases h0 : ⌊w / lineScaleOf edges sbw (histUsableLines lines title summary labels)⌋ = 0
    · rw [if_pos h0, h0]
      simp
    · rw [if_neg h0]
      exact (max_eq_left (by omega)).symm
  · rw [List.all_eq_true]
    intro b hb
    unfold binLinesOf at hb
    rw [List.mem_map] at hb
    obtain ⟨w, hw, hbw⟩ := hb
    have hq : 0 ≤ ⌊w / lineScaleOf edges sbw (histUsableLines lines title summary labels)⌋ := by
      apply Int.floor_nonneg.mpr
      exact div_nonneg (hmono w hw) (le_of_lt hls)
    rw [decide_eq_true_iff]
    by_cases h0 : ⌊w / lineScaleOf edges sbw (histUsableLines lines title summary labels)⌋ = 0
    · rw [if_pos h0] at hbw; omega
    · rw [if_neg h0] at hbw; omega

/-- C2 amended witness: line budget 10, title, one label, edges `[0, 1, 3]`. -/
theorem hist_layout_row_budget_witness :
    histUsableLines 10 "T" false ["A"] =
      10 - 1 - (if 0 < ("T" : String).length then 1 else 0) -
        (if false then 4
         else if (["A"] : List String).any (fun lab => decide (0 < lab.length)) then 1 else 0) ∧
    0 < lineScaleOf [0, 1, 3] true (histUsableLines 10 "T" false ["A"]) ∧
    binLinesOf [0, 1, 3] (lineScaleOf [0, 1, 3] true (histUsableLines 10 "T" false ["A"])) =
      (binWidths [0, 1, 3]).map
        (fun w => max ⌊w / lineScaleOf [0, 1, 3] true (histUsableLines 10 "T" false ["A"])⌋ 1) ∧
    (binLinesOf [0, 1, 3] (lineScaleOf [0, 1, 3] true (histUsableLines 10 "T" false ["A"]))).all
      (fun b => decide (1 ≤ b)) = true :=
  hist_layout_row_budget 10 "T" false ["A"] [0, 1, 3] true (by decide)
    (by
      intro w hw
      have hb : binWidths [0, 1, 3] = [1 - 0, 3 - 1] := rfl
      rw [hb] at hw
      simp only [List.mem_cons, List.not_mem_nil, or_false] at hw
      rcases hw with rfl | rfl <;> norm_num)

/-! Layout engine: symbol-scale computation and bin-section assembly
(`HistFormatter.format_histogram`, lines 427-482 of `formatter.py`). -/

/-- The state stored by `HistFormatter.__init__` that the bin-section
rendering reads. -/
structure HistFormatter where
  edges : List ℚ
  lines : ℤ
  columns : ℤ
  title : String
  labels : List String
  summary : Bool
  max_count : Option ℚ
  hist_lines : ℤ
  bin_lines : List ℤ
  bf : BinFormatter

/-- Python `HistFormatter.__init__` (with explicit line/column budgets; the
terminal-size defaults are out of scope). -/
def mkHistFormatter (edges : List ℚ) (lines columns : ℤ) (scale_bin_width : Bool)
    (title : String) (labels : List String) (summary : Bool) (max_count : Option ℚ)
    (bf : BinFormatter) : HistFormatter :=
  let hl := histUsableLines lines title summary labels
  { edges := edges, lines := lines, columns := columns, title := title,
    labels := labels, summary := summary, max_count := max_count,
    hist_lines := hl,
    bin_lines := binLinesOf edges (lineScaleOf edges scale_bin_width hl),
    bf := bf }

/-- Width of the axis column, Python `axis_width = tick_format_width +
len(tick_mark)`. -/
def axisWidthOf (bf : BinFormatter) : ℕ := bf.tick_format_width + bf.tick_mark.length

/-- Python `hist_width = columns - axis_width`. -/
def HistFormatter.histWidth (hf : HistFormatter) : ℤ :=
  hf.columns - (axisWidthOf hf.bf : ℤ)

/-- Per-bin aggregate content: sum over series when stacking, else the
maximum over series. -/
def aggregateOf (stack : Bool) (col : List ℚ) : ℚ :=
  if stack then col.sum else listMax col

/-- Python `tot_c`: aggregate of each bin column of the series-by-bin count
matrix. -/
def HistFormatter.totContents (hf : HistFormatter) (counts : List (List ℚ)) : List ℚ :=
  counts.transpose.map (aggregateOf hf.bf.stack)

/-- Python `c = tot_c / self.bin_lines if count_area else tot_c`. -/
def HistFormatter.cDiv (hf : HistFormatter) (counts : List (List ℚ)) : List ℚ :=
  if hf.bf.count_area then
    List.zipWith (fun t (w : ℤ) => t / (w : ℚ)) (hf.totContents counts) hf.bin_lines
  else
    hf.totContents counts

/-- Python `max_c = np.max(c) if self.max_count is None else self.max_count`. -/
def HistFormatter.maxC (hf : HistFormatter) (counts : List (List ℚ)) : ℚ :=
  match hf.max_count with
  | some m => m
  | none => listMax (hf.cDiv counts)

/-- Python `symbol_scale * 0.999` assigned to the bin formatter before the
bin loop. -/
def HistFormatter.binScale (hf : HistFormatter) (counts : List (List ℚ)) : ℚ :=
  hf.maxC counts / (hf.histWidth : ℚ) * (999/1000)

/-- The bin formatter with the data-dependent scale installed
(`self.bin_formatter.scale = symbol_scale * 0.999`). -/
def HistFormatter.scaledBF (hf : HistFormatter) (counts : List (List ℚ)) : BinFormatter :=
  { hf.bf with scale := hf.binScale counts }

/-- Fuel-driven search for the power of ten of a rational at least 1. -/
def fl10up : ℕ → ℚ → ℤ
  | 0, _ => 0
  | n + 1, x => if x < 10 then 0 else 1 + fl10up n (x / 10)

/-- Fuel-driven search for the power of ten of a positive rational below 1. -/
def fl10down : ℕ → ℚ → ℤ
  | 0, _ => 0
  | n + 1, x => if 1 ≤ x then 0 else fl10down n (x * 10) - 1

/-- Python `np.floor(np.log10(x))` for positive `x` (the common-exponent
computation of `format_histogram`); the fuel bounds the number of decimal
shifts by the size of the fraction. -/
def floorLog10 (x : ℚ) : ℤ :=
  if 1 ≤ x then fl10up (x.num.natAbs + x.den) x else fl10down (x.num.natAbs + x.den) x

/-- Python `common_exponent = np.floor(np.log10(np.max(np.abs(edges))))`. -/
def HistFormatter.commonExp (hf : HistFormatter) : ℤ :=
  floorLog10 (listMax (hf.edges.map (fun e => |e|)))

/-- Python `top = edges[:-1] / 10**common_exponent`. -/
def HistFormatter.topEdges (hf : HistFormatter) : List ℚ :=
  hf.edges.dropLast.map (fun e => e / (10 : ℚ) ^ hf.commonExp)

/-- Python `bottom = edges[1:] / 10**common_exponent`. -/
def HistFormatter.bottomEdges (hf : HistFormatter) : List ℚ :=
  hf.edges.tail.map (fun e => e / (10 : ℚ) ^ hf.commonExp)

/-- Python `zip(counts.T, top, bottom, self.bin_lines)` (truncating at the
shortest sequence, as `zip` does). -/
def HistFormatter.binRows (hf : HistFormatter) (counts : List (List ℚ)) :
    List (List ℚ × ℚ × ℚ × ℤ) :=
  List.zip counts.transpose (List.zip hf.topEdges (List.zip hf.bottomEdges hf.bin_lines))

/-- The bin section of `format_histogram`: each bin rendered by
`format_bin` with the data-dependent scale, concatenated in order. -/
def HistFormatter.formatBins (hf : HistFormatter) (counts : List (List ℚ)) :
    Except HixelError String := do
  let pieces ← mapME
    (fun r => (hf.scaledBF counts).formatBin r.2.1 r.2.2.1 r.1 r.2.2.2)
    (hf.binRows counts)
  pure (strConcat pieces)

/-! Visible width of rendered output: characters outside ANSI escape
sequences, with zero-width combining characters not counted. -/

/-- The zero-width combining characters the renderer emits: the filler
`U+034F` and the diagonal overlay marks `U+20E5` and `U+20EB`. -/
def zeroWidthChar (c : Char) : Bool :=
  c = '\u034F' || c = '\u20E5' || c = '\u20EB'

/-- Visible-character scan; the flag records being inside an ANSI escape
sequence (from `ESC` up to the terminating `m`). -/
def visAux : Bool → List Char → ℕ
  | _, [] => 0
  | true, c :: r => if c = 'm' then visAux false r else visAux true r
  | false, c :: r =>
      if c = '\x1b' then visAux true r
      else (if zeroWidthChar c then 0 else 1) + visAux false r

/-- Visible (non-escape, nonzero-width) character count of a string. -/
def visibleWidth (s : String) : ℕ := visAux false s.data

/-- Split a character list at newlines (`str.split("\n")` semantics: one
more piece than newlines, trailing piece possibly empty). -/
def splitLines : List Char → List (List Char)
  | [] => [[]]
  | c :: r =>
      if c = '\n' then [] :: splitLines r
      else
        match splitLines r with
        | [] => [[c]]
        | h :: t => (c :: h) :: t

/-- Bounded-lines check: every line of a successful render has visible width
at most `cols` (vacuous on an error result). -/
def linesBound (res : Except HixelError String) (cols : ℤ) : Bool :=
  match res with
  | .error _ => true
  | .ok s => (splitLines s.data).all (fun l => decide ((visAux false l : ℤ) ≤ cols))

/-- Constant tick format (a Python `tick_format` string with no placeholder,
such as `"  1.000 "`, which `str.format` returns verbatim). -/
def tickConst : ℚ → String := fun _ => "  1.000 "

/-- A plain, color-free render configuration: symbol `|`, default colors. -/
def bfPlain : BinFormatter :=
  { scale := 1, count_area := true, tickFormat := tickConst, tick_format_width := 8,
    tick_mark := "_", no_tick_mark := " ", print_top_edge := false,
    symbols := ['|'], fg_colors := ['0'], bg_colors := ['0'],
    stack := false, use_color := false }

/-- Formatter over edges `[0, 1]` with a line budget of 2 and a column budget
of 1009 (so 1000 columns remain after the 9-column axis). -/
def hfOvershoot : HistFormatter :=
  mkHistFormatter [0, 1] 2 1009 true "" [""] false none bfPlain

/-- The same configuration at an arbitrary column budget (the row layout
does not depend on the column budget). -/
def hfParam (cols : ℤ) : HistFormatter :=
  mkHistFormatter [0, 1] 2 cols true "" [""] false none bfPlain

theorem strConcat_single (s : String) : strConcat [s] = s := by
  show s ++ "" = s
  cases s with
  | mk data => exact congrArg String.mk (List.append_nil data)

/-! Generic lemmas about `mapME`, `strConcat`, `visAux` and `splitLines`. -/

theorem mapME_ok_length {ε α β : Type} (f : α → Except ε β) :
    ∀ (l : List α) (out : List β), mapME f l = .ok out → out.length = l.length := by
  intro l
  induction l with
  | nil =>
    intro out h
    cases h
    rfl
  | cons a as ih =>
    intro out h
    simp only [mapME] at h
    cases hfa : f a with
    | error e => rw [hfa] at h; exact absurd h (by simp)
    | ok b =>
      rw [hfa] at h
      cases hrest : mapME f as with
      | error e => rw [hrest] at h; exact absurd h (by simp)
      | ok bs =>
        rw [hrest] at h
        cases h
        simp [ih bs hrest]

theorem mapME_ok_forall {ε α β : Type} (f : α → Except ε β) :
    ∀ (l : List α) (out : List β), mapME f l = .ok out →
      ∀ b ∈ out, ∃ a ∈ l, f a = .ok b := by
  intro l
  induction l with
  | nil =>
    intro out h b hb
    cases h
    exact absurd hb (List.not_mem_nil b)
  | cons a as ih =>
    intro out h b hb
    simp only [mapME] at h
    cases hfa : f a with
    | error e => rw [hfa] at h; exact absurd h (by simp)
    | ok b0 =>
      rw [hfa] at h
      cases hrest : mapME f as with
      | error e => rw [hrest] at h; exact absurd h (by simp)
      | ok bs =>
        rw [hrest] at h
        cases h
        rcases List.mem_cons.mp hb with rfl | hmem
        · exact ⟨a, List.mem_cons_self a as, hfa⟩
        · obtain ⟨a2, ha2, hfa2⟩ := ih bs hrest b hmem
          exact ⟨a2, List.mem_cons_of_mem a ha2, hfa2⟩

theorem mapME_replicate {ε α β : Type} (f : α → Except ε β) (a : α) (b : β)
    (hf : f a = .ok b) : ∀ n, mapME f (List.replicate n a) = .ok (List.replicate n b) := by
  intro n
  induction n with
  | zero => rfl
  | succ k ih =>
    simp only [List.replicate_succ, mapME, hf, ih]

theorem strConcat_data : ∀ l : List String,
    (strConcat l).data = (l.map String.data).join
  | [] => rfl
  | s :: r => by
    simp only [strConcat, String.data_append, List.map, strConcat_data r]
    rfl

/-- Characters that are not escape starters, newlines, or zero-width marks. -/
def plainChar (c : Char) : Bool := !(c = '\x1b' || c = '\n' || zeroWidthChar c)

theorem visAux_plain_append (l : List Char) (hl : ∀ c ∈ l, plainChar c = true) :
    ∀ rest, visAux false (l ++ rest) = l.length + visAux false rest := by
  induction l with
  | nil => intro rest; simp
  | cons c r ih =>
    intro rest
    have hc := hl c (List.mem_cons_self c r)
    simp only [plainChar, Bool.not_eq_true', Bool.or_eq_false_iff, decide_eq_false_iff_not] at hc
    show visAux false (c :: (r ++ rest)) = (c :: r).length + visAux false rest
    rw [show visAux false (c :: (r ++ rest)) =
      (if c = '\x1b' then visAux true (r ++ rest)
       else (if zeroWidthChar c then 0 else 1) + visAux false (r ++ rest)) from rfl]
    rw [if_neg hc.1.1, if_neg (by simp [hc.2] : ¬ zeroWidthChar c = true)]
    rw [ih (fun x hx => hl x (List.mem_cons_of_mem _ hx)) rest]
    simp [List.length_cons]
    omega

theorem visAux_true_append (l : List Char) (hl : 'm' ∉ l) :
    ∀ rest, visAux true (l ++ ('m' :: rest)) = visAux false rest := by
  induction l with
  | nil => intro rest; simp [visAux]
  | cons c r ih =>
    intro rest
    have hc : ¬ c = 'm' := fun h => hl (h ▸ List.mem_cons_self c r)
    simp only [List.cons_append, visAux, if_neg hc]
    exact ih (fun h => hl (List.mem_cons_of_mem _ h)) rest

theorem splitLines_append_line (l : List Char) (hl : '\n' ∉ l) (r : List Char) :
    splitLines (l ++ '\n' :: r) = l :: splitLines r := by
  induction l with
  | nil => simp [splitLines]
  | cons c t ih =>
    have hc : ¬ c = '\n' := fun h => hl (h ▸ List.mem_cons_self c t)
    have ih2 := ih (fun h => hl (List.mem_cons_of_mem _ h))
    show splitLines (c :: (t ++ '\n' :: r)) = (c :: t) :: splitLines r
    rw [show splitLines (c :: (t ++ '\n' :: r)) =
      (if c = '\n' then [] :: splitLines (t ++ '\n' :: r)
       else match splitLines (t ++ '\n' :: r) with
         | [] => [[c]]
         | h :: t2 => (c :: h) :: t2) from rfl]
    rw [if_neg hc, ih2]

/-- A rendered cell: exactly one visible character, no newline, escape
sequences closed. -/
def goodCell (s : String) : Prop :=
  (∀ rest, visAux false (s.data ++ rest) = 1 + visAux false rest) ∧ '\n' ∉ s.data

theorem cells_visAux (cells : List String) (hc : ∀ c ∈ cells, goodCell c) :
    ∀ rest, visAux false ((strConcat cells).data ++ rest) = cells.length + visAux false rest := by
  induction cells with
  | nil => intro rest; simp [strConcat]
  | cons c r ih =>
    intro rest
    have h1 := hc c (List.mem_cons_self c r)
    simp only [strConcat, String.data_append, List.append_assoc]
    rw [h1.1, ih (fun x hx => hc x (List.mem_cons_of_mem _ hx)) rest]
    simp [List.length_cons]
    omega

theorem cells_no_newline (cells : List String) (hc : ∀ c ∈ cells, goodCell c) :
    '\n' ∉ (strConcat cells).data := by
  induction cells with
  | nil => simp [strConcat]
  | cons c r ih =>
    intro hmem
    simp only [strConcat, String.data_append, List.mem_append] at hmem
    rcases hmem with h | h
    · exact (hc c (List.mem_cons_self c r)).2 h
    · exact ih (fun x hx => hc x (List.mem_cons_of_mem _ hx)) h

/-! Shape of rendered cells: every successfully rendered cell paints exactly
one visible character. -/

theorem colorCode_cases (c : Char) (n : ℕ) (h : colorCode c = some n) :
    n ∈ [30, 31, 32, 33, 34, 35, 36, 37, 39, 90, 91, 92, 93, 94, 95, 96, 97] := by
  unfold colorCode at h
  split at h <;> cases h <;> decide

theorem code_str_chars : ∀ n ∈ [30, 31, 32, 33, 34, 35, 36, 37, 39, 90, 91, 92, 93, 94, 95, 96, 97],
    ('m' ∉ (toString n).data ∧ '\n' ∉ (toString n).data) ∧
    ('m' ∉ (toString (n + 10)).data ∧ '\n' ∉ (toString (n + 10)).data) := by decide

theorem ansi_ok_goodEsc (h : Hixel) (f b : Char) (a : String)
    (hok : h.ansi_color_string f b = .ok a) :
    (∀ rest, visAux false (a.data ++ rest) = visAux false rest) ∧ '\n' ∉ a.data := by
  unfold Hixel.ansi_color_string at hok
  by_cases huc : h.use_color = true
  · rw [if_pos huc] at hok
    cases hf : colorCode f with
    | none => rw [hf] at hok; exact absurd hok (by cases hb : colorCode b <;> simp [hb])
    | some n1 =>
      cases hb : colorCode b with
      | none => rw [hf, hb] at hok; exact absurd hok (by simp)
      | some n2 =>
        rw [hf, hb] at hok
        cases hok
        have hm1 := (code_str_chars n1 (colorCode_cases f n1 hf)).1
        have hm2 := (code_str_chars n2 (colorCode_cases b n2 hb)).2
        have hdata : ("\x1b[" ++ toString n1 ++ ";" ++ toString (n2 + 10) ++ "m").data
            = '\x1b' :: '[' :: ((toString n1).data ++ (';' :: ((toString (n2 + 10)).data ++ ['m']))) := by
          simp [String.data_append]
        constructor
        · intro rest
          have hnm : 'm' ∉ '[' :: ((toString n1).data ++ (';' :: (toString (n2 + 10)).data)) := by
            intro hmem
            rcases List.mem_cons.mp hmem with h1 | h1
            · exact absurd h1 (by decide)
            · rcases List.mem_append.mp h1 with h2 | h2
              · exact hm1.1 h2
              · rcases List.mem_cons.mp h2 with h3 | h3
                · exact absurd h3 (by decide)
                · exact hm2.1 h3
          have hkey := visAux_true_append
            ('[' :: ((toString n1).data ++ (';' :: (toString (n2 + 10)).data))) hnm rest
          rw [hdata]
          rw [show ('\x1b' :: '[' :: ((toString n1).data ++
              (';' :: ((toString (n2 + 10)).data ++ ['m'])))) ++ rest
            = '\x1b' :: (('[' :: ((toString n1).data ++ (';' :: (toString (n2 + 10)).data)))
              ++ ('m' :: rest)) by simp]
          rw [show visAux false ('\x1b' :: (('[' :: ((toString n1).data ++
              (';' :: (toString (n2 + 10)).data))) ++ ('m' :: rest)))
            = visAux true (('[' :: ((toString n1).data ++ (';' :: (toString (n2 + 10)).data)))
              ++ ('m' :: rest)) from rfl]
          exact hkey
        · rw [hdata]
          intro hmem
          rcases List.mem_cons.mp hmem with h1 | hmem2
          · exact absurd h1 (by decide)
          rcases List.mem_cons.mp hmem2 with h1 | hmem3
          · exact absurd h1 (by decide)
          rcases List.mem_append.mp hmem3 with h1 | hmem4
          · exact hm1.2 h1
          rcases List.mem_cons.mp hmem4 with h1 | hmem5
          · exact absurd h1 (by decide)
          rcases List.mem_append.mp hmem5 with h1 | hmem6
          · exact hm2.2 h1
          · exact absurd hmem6 (by decide)
  · rw [if_neg huc] at hok
    cases hok
    exact ⟨fun rest => rfl, by decide⟩

theorem substitute_goodCell (ch : Char)
    (hch : ch = ' ' ∨ ch = '=' ∨ ch = '|' ∨ ch = '#') (cp : Option Char)
    (hcp : cp = none ∨ cp = some ' ' ∨ cp = some '/' ∨ cp = some '\\' ∨ cp = some 'X') :
    (∀ rest, visAux false ((substitute_character ch cp).data ++ rest) = 1 + visAux false rest) ∧
    '\n' ∉ (substitute_character ch cp).data := by
  rcases hch with rfl | rfl | rfl | rfl <;> rcases hcp with rfl | rfl | rfl | rfl | rfl <;>
    exact ⟨fun rest => by simp [substitute_character, subsTable, visAux, zeroWidthChar],
      by decide⟩

/-- Every successfully rendered cell with a well-formed base glyph and
compose slot contributes exactly one visible character and no newline. -/
theorem render_goodCell (h : Hixel)
    (hch : h.character = ' ' ∨ h.character = '=' ∨ h.character = '|' ∨ h.character = '#')
    (hcp : h.compose = none ∨ h.compose = some ' ' ∨ h.compose = some '/' ∨
      h.compose = some '\\' ∨ h.compose = some 'X')
    (s : String) (hok : h.render true = .ok s) : goodCell s := by
  unfold Hixel.render at hok
  by_cases hcond : (h.character = ' ' ∧ (h.compose = some ' ' ∨ h.compose = none) ∧ h.bg_color ≠ '0')
  · rw [if_pos hcond] at hok
    cases ha : h.ansi_color_string h.bg_color (swapCase h.bg_color) with
    | error e =>
      rw [ha] at hok
      exact absurd hok (by simp [exBind_error, exMap_error])
    | ok a =>
      rw [ha] at hok
      cases hz : h.ansi_color_string '0' '0' with
      | error e =>
        rw [hz] at hok
        exact absurd hok (by simp [exBind_ok, exBind_error, exMap_error, exPure])
      | ok z =>
        rw [hz] at hok
        simp only [exBind_ok, exBind_error, exMap_ok, exPure, if_pos rfl] at hok
        cases hok
        have hga := ansi_ok_goodEsc h _ _ a ha
        have hgz := ansi_ok_goodEsc h _ _ z hz
        constructor
        · intro rest
          rw [show ((a ++ "█") ++ z).data ++ rest
            = a.data ++ ('█' :: (z.data ++ rest)) by simp [String.data_append]]
          rw [hga.1]
          rw [show visAux false ('█' :: (z.data ++ rest))
            = 1 + visAux false (z.data ++ rest) from by
              simp [visAux, zeroWidthChar]]
          rw [hgz.1]
        · intro hmem
          rw [show ((a ++ "█") ++ z).data
            = a.data ++ ('█' :: z.data) by simp [String.data_append]] at hmem
          rcases List.mem_append.mp hmem with h1 | h1
          · exact hga.2 h1
          · rcases List.mem_cons.mp h1 with h2 | h2
            · exact absurd h2 (by decide)
            · exact hgz.2 h2
  · rw [if_neg hcond] at hok
    cases ha : h.ansi_color_string h.fg_color h.bg_color with
    | error e =>
      rw [ha] at hok
      exact absurd hok (by simp [exBind_error, exMap_error])
    | ok a =>
      rw [ha] at hok
      cases hz : h.ansi_color_string '0' '0' with
      | error e =>
        rw [hz] at hok
        exact absurd hok (by simp [exBind_ok, exBind_error, exMap_error, exPure])
      | ok z =>
        rw [hz] at hok
        simp only [exBind_ok, exBind_error, exMap_ok, exPure, if_pos rfl] at hok
        cases hok
        have hga := ansi_ok_goodEsc h _ _ a ha
        have hgz := ansi_ok_goodEsc h _ _ z hz
        have hsub := substitute_goodCell h.character hch h.compose hcp
        constructor
        · intro rest
          rw [show ((a ++ substitute_character h.character h.compose) ++ z).data ++ rest
            = a.data ++ ((substitute_character h.character h.compose).data ++ (z.data ++ rest)) by
              simp [String.data_append]]
          rw [hga.1, hsub.1, hgz.1]
        · intro hmem
          rw [show ((a ++ substitute_character h.character h.compose) ++ z).data
            = a.data ++ ((substitute_character h.character h.compose).data ++ z.data) by
              simp [String.data_append]] at hmem
          rcases List.mem_append.mp hmem with h1 | h1
          · exact hga.2 h1
          · rcases List.mem_append.mp h1 with h2 | h2
            · exact hsub.2 h2
            · exact hgz.2 h2

/-! Well-formedness of cells built by the row formatter: base glyphs stay in
the renderable set, compose slots stay in the compose set. -/

/-- Well-formed cell state: reachable base glyphs and compose slots. -/
def WFHixel (h : Hixel) : Prop :=
  (h.character = ' ' ∨ h.character = '=' ∨ h.character = '|' ∨ h.character = '#') ∧
  (h.compose = none ∨ h.compose = some ' ' ∨ h.compose = some '/' ∨
    h.compose = some '\\' ∨ h.compose = some 'X')

theorem bgUpdate_WF (h : Hixel) (bg : Char) (hw : WFHixel h) : WFHixel (h.bgUpdate bg) := by
  unfold WFHixel
  rw [Hixel.bgUpdate_character, Hixel.bgUpdate_compose]
  exact hw

theorem combineStep_WF (h : Hixel) (ch : Char) (hw : WFHixel h)
    (hall : ch ∈ allowedSymbols) : WFHixel (h.combineStep ch) := by
  unfold Hixel.combineStep
  by_cases hcc : ch ∈ composeChars
  · rw [if_pos hcc]
    cases hcp : h.compose with
    | none => exact hw
    | some c0 =>
      refine ⟨hw.1, ?_⟩
      show (compose_combinations c0 ch = none ∨ _)
      unfold compose_combinations
      split <;> simp
  · rw [if_neg hcc]
    refine ⟨?_, hw.2⟩
    show ((char_combinations h.character ch).getD ch = ' ' ∨ _)
    have hch3 : ch = ' ' ∨ ch = '=' ∨ ch = '|' := by
      simp only [allowedSymbols, List.mem_cons, List.not_mem_nil, or_false] at hall
      rcases hall with h1 | h1 | h1 | h1 | h1
      · exact Or.inl h1
      · exact Or.inr (Or.inl h1)
      · exact Or.inr (Or.inr h1)
      · exact absurd (by rw [h1]; decide : ch ∈ composeChars) hcc
      · exact absurd (by rw [h1]; decide : ch ∈ composeChars) hcc
    have hcomb : char_combinations h.character ch = some '#' ∨
        char_combinations h.character ch = none := by
      unfold char_combinations
      split <;> simp
    rcases hcomb with h1 | h1
    · rw [h1]; simp
    · rw [h1]
      rcases hch3 with rfl | rfl | rfl <;> simp

theorem add_WF (h : Hixel) (ch fg bg : Char) (h2 : Hixel) (hw : WFHixel h)
    (hok : h.add ch fg bg = .ok h2) : WFHixel h2 := by
  rw [Hixel.add_eq] at hok
  by_cases hall : ch ∈ allowedSymbols
  · rw [if_pos hall] at hok
    by_cases hfg : fg = h.fg_color
    · rw [if_pos hfg] at hok
      cases hok
      exact bgUpdate_WF _ bg (combineStep_WF h ch hw hall)
    · rw [if_neg hfg] at hok
      by_cases hsp : ch ≠ ' '
      · rw [if_pos hsp] at hok
        cases hok
        refine bgUpdate_WF _ bg (combineStep_WF _ ch ⟨Or.inl rfl, hw.2⟩ hall)
      · rw [if_neg hsp] at hok
        cases hok
        exact bgUpdate_WF _ bg hw
  · rw [if_neg hall] at hok
    exact absurd hok (by simp)

theorem mkHixel_WF (ch fg bg : Char) (uc : Bool) (cp : Option Char) (h2 : Hixel)
    (hcp : cp = none ∨ cp = some ' ' ∨ cp = some '/' ∨ cp = some '\\' ∨ cp = some 'X')
    (hok : mkHixel ch fg bg uc cp = .ok h2) : WFHixel h2 :=
  add_WF _ ch fg bg h2 ⟨Or.inl rfl, hcp⟩ hok

theorem mapME_preserve {ε α : Type} (f : α → Except ε α) (P : α → Prop)
    (hstep : ∀ a b, P a → f a = .ok b → P b) :
    ∀ (l : List α) (out : List α), (∀ a ∈ l, P a) → mapME f l = .ok out →
      ∀ b ∈ out, P b := by
  intro l
  induction l with
  | nil =>
    intro out _ h b hb
    cases h
    exact absurd hb (List.not_mem_nil b)
  | cons a as ih =>
    intro out hall h b hb
    simp only [mapME] at h
    cases hfa : f a with
    | error e => rw [hfa] at h; exact absurd h (by simp)
    | ok b0 =>
      rw [hfa] at h
      cases hrest : mapME f as with
      | error e => rw [hrest] at h; exact absurd h (by simp)
      | ok bs =>
        rw [hrest] at h
        cases h
        rcases List.mem_cons.mp hb with rfl | hmem
        · exact hstep a b (hall a (List.mem_cons_self a as)) hfa
        · exact ih bs (fun x hx => hall x (List.mem_cons_of_mem a hx)) hrest b hmem

theorem buildLineStep_WF (uc : Bool) (cp : Option Char) (stack : Bool)
    (line : List Hixel) (x : ℤ × Char × Char × Char) (out : List Hixel)
    (hcp : cp = none ∨ cp = some ' ' ∨ cp = some '/' ∨ cp = some '\\' ∨ cp = some 'X')
    (hline : ∀ h ∈ line, WFHixel h)
    (hok : buildLineStep uc cp stack line x = .ok out) :
    ∀ h ∈ out, WFHixel h := by
  rcases x with ⟨hh, s, fg, bg⟩
  unfold buildLineStep at hok
  dsimp only at hok
  by_cases h0 : hh ≠ 0
  · rw [if_pos h0] at hok
    by_cases hstack : stack = true
    · rw [if_pos hstack] at hok
      by_cases hpos : 0 < hh
      · rw [if_pos hpos] at hok
        cases hmk : mkHixel s fg bg uc cp with
        | error e => rw [hmk] at hok; exact absurd hok (by simp [exBind_error, exMap_error])
        | ok hx =>
          rw [hmk] at hok
          simp only [exBind_ok, exMap_ok, exPure] at hok
          cases hok
          intro h hmem
          rcases List.mem_append.mp hmem with h1 | h1
          · exact hline h h1
          · rw [List.eq_of_mem_replicate h1]
            exact mkHixel_WF s fg bg uc cp hx hcp hmk
      · rw [if_neg hpos] at hok
        cases hok
        exact hline
    · rw [if_neg hstack] at hok
      by_cases hgt : hh > (line.length : ℤ)
      · rw [if_pos hgt] at hok
        cases hmm : mapME (fun x => x.add s fg bg) line with
        | error e => rw [hmm] at hok; exact absurd hok (by simp [exBind_error, exMap_error])
        | ok line2 =>
          rw [hmm] at hok
          cases hmk : mkHixel s fg bg uc cp with
          | error e => rw [hmk] at hok; exact absurd hok (by simp [exBind_ok, exBind_error, exMap_error])
          | ok hx =>
            rw [hmk] at hok
            simp only [exBind_ok, exMap_ok, exPure] at hok
            cases hok
            intro h hmem
            rcases List.mem_append.mp hmem with h1 | h1
            · exact mapME_preserve _ WFHixel
                (fun a b ha hab => add_WF a s fg bg b ha hab) line line2 hline hmm h h1
            · rw [List.eq_of_mem_replicate h1]
              exact mkHixel_WF s fg bg uc cp hx hcp hmk
      · rw [if_neg hgt] at hok
        cases hmm : mapME (fun x => x.add s fg bg) (line.take (pySliceLen hh line.length)) with
        | error e => rw [hmm] at hok; exact absurd hok (by simp [exBind_error, exMap_error])
        | ok pre =>
          rw [hmm] at hok
          simp only [exBind_ok, exMap_ok, exPure] at hok
          cases hok
          intro h hmem
          rcases List.mem_append.mp hmem with h1 | h1
          · exact mapME_preserve _ WFHixel
              (fun a b ha hab => add_WF a s fg bg b ha hab) _ pre
              (fun x hx => hline x (List.mem_of_mem_take hx)) hmm h h1
          · exact hline h (List.mem_of_mem_drop h1)
  · rw [if_neg h0] at hok
    cases hok
    exact hline

theorem buildLine_WF (uc : Bool) (cp : Option Char) (stack : Bool)
    (hcp : cp = none ∨ cp = some ' ' ∨ cp = some '/' ∨ cp = some '\\' ∨ cp = some 'X') :
    ∀ (series : List (ℤ × Char × Char × Char)) (line out : List Hixel),
      (∀ h ∈ line, WFHixel h) → buildLine uc cp stack series line = .ok out →
      ∀ h ∈ out, WFHixel h := by
  intro series
  induction series with
  | nil =>
    intro line out hline hok
    cases hok
    exact hline
  | cons x rest ih =>
    intro line out hline hok
    simp only [buildLine] at hok
    cases hstep : buildLineStep uc cp stack line x with
    | error e => rw [hstep] at hok; exact absurd hok (by simp [exBind_error])
    | ok line2 =>
      rw [hstep] at hok
      simp only [exBind_ok] at hok
      exact ih line2 out (buildLineStep_WF uc cp stack line x line2 hcp hline hstep) hok

/-! Row lengths produced by the line builder. -/

theorem buildLineStep_length (uc : Bool) (cp : Option Char) (stack : Bool)
    (line : List Hixel) (hh : ℤ) (s fg bg : Char) (out : List Hixel)
    (hok : buildLineStep uc cp stack line (hh, s, fg, bg) = .ok out) :
    out.length = if stack then line.length + hh.toNat else max line.length hh.toNat := by
  unfold buildLineStep at hok
  dsimp only at hok
  by_cases h0 : hh ≠ 0
  · rw [if_pos h0] at hok
    by_cases hstack : stack = true
    · rw [if_pos hstack] at hok
      rw [if_pos hstack]
      by_cases hpos : 0 < hh
      · rw [if_pos hpos] at hok
        cases hmk : mkHixel s fg bg uc cp with
        | error e => rw [hmk] at hok; exact absurd hok (by simp [exBind_error, exMap_error])
        | ok hx =>
          rw [hmk] at hok
          simp only [exBind_ok, exMap_ok, exPure] at hok
          cases hok
          simp [List.length_append, List.length_replicate]
      · rw [if_neg hpos] at hok
        cases hok
        have : hh.toNat = 0 := by omega
        simp [this]
    · rw [if_neg hstack] at hok
      rw [if_neg hstack]
      by_cases hgt : hh > (line.length : ℤ)
      · rw [if_pos hgt] at hok
        cases hmm : mapME (fun x => x.add s fg bg) line with
        | error e => rw [hmm] at hok; exact absurd hok (by simp [exBind_error, exMap_error])
        | ok line2 =>
          rw [hmm] at hok
          cases hmk : mkHixel s fg bg uc cp with
          | error e => rw [hmk] at hok; exact absurd hok (by simp [exBind_ok, exBind_error, exMap_error])
          | ok hx =>
            rw [hmk] at hok
            simp only [exBind_ok, exMap_ok, exPure] at hok
            cases hok
            have hlen2 := mapME_ok_length _ line line2 hmm
            simp only [List.length_append, List.length_replicate, hlen2]
            omega
      · rw [if_neg hgt] at hok
        cases hmm : mapME (fun x => x.add s fg bg) (line.take (pySliceLen hh line.length)) with
        | error e => rw [hmm] at hok; exact absurd hok (by simp [exBind_error, exMap_error])
        | ok pre =>
          rw [hmm] at hok
          simp only [exBind_ok, exMap_ok, exPure] at hok
          cases hok
          have hlenp := mapME_ok_length _ _ pre hmm
          have hk : pySliceLen hh line.length ≤ line.length := by
            unfold pySliceLen
            split <;> omega
          simp only [List.length_append, hlenp, List.length_take, List.length_drop]
          omega
  · rw [if_neg h0] at hok
    cases hok
    have : hh = 0 := by omega
    simp [this]

theorem buildLine_length (uc : Bool) (cp : Option Char) (stack : Bool) :
    ∀ (series : List (ℤ × Char × Char × Char)) (line out : List Hixel),
      buildLine uc cp stack series line = .ok out →
      out.length = series.foldl
        (fun acc x => if stack then acc + x.1.toNat else max acc x.1.toNat) line.length := by
  intro series
  induction series with
  | nil =>
    intro line out hok
    cases hok
    rfl
  | cons x rest ih =>
    intro line out hok
    simp only [buildLine] at hok
    cases hstep : buildLineStep uc cp stack line x with
    | error e => rw [hstep] at hok; exact absurd hok (by simp [exBind_error])
    | ok line2 =>
      rw [hstep] at hok
      simp only [exBind_ok] at hok
      rcases x with ⟨hh, s, fg, bg⟩
      have h2 := buildLineStep_length uc cp stack line hh s fg bg line2 hstep
      rw [ih line2 out hok, List.foldl_cons, ← h2]

theorem buildLine_length_stack (uc : Bool) (cp : Option Char)
    (series : List (ℤ × Char × Char × Char)) (line out : List Hixel)
    (hok : buildLine uc cp true series line = .ok out) :
    out.length = series.foldl (fun acc x => acc + x.1.toNat) line.length := by
  have h := buildLine_length uc cp true series line out hok
  rw [h]
  rfl

theorem buildLine_length_overlay (uc : Bool) (cp : Option Char)
    (series : List (ℤ × Char × Char × Char)) (line out : List Hixel)
    (hok : buildLine uc cp false series line = .ok out) :
    out.length = series.foldl (fun acc x => max acc x.1.toNat) line.length := by
  have h := buildLine_length uc cp false series line out hok
  rw [h]
  rfl

/-! Arithmetic bounds on bin heights. -/

theorem foldl_toNat_cast : ∀ (l : List ℤ) (a : ℕ),
    ((l.foldl (fun (acc : ℕ) q => acc + q.toNat) a : ℕ) : ℤ)
      = (a : ℤ) + (l.map (fun q => (q.toNat : ℤ))).sum := by
  intro l
  induction l with
  | nil => intro a; simp
  | cons q t ih =>
    intro a
    simp only [List.foldl_cons, List.map_cons, List.sum_cons]
    rw [ih (a + q.toNat)]
    push_cast
    ring

theorem sum_toNat_of_nonneg : ∀ (l : List ℤ), (∀ q ∈ l, 0 ≤ q) →
    (l.map (fun q => (q.toNat : ℤ))).sum = l.sum := by
  intro l
  induction l with
  | nil => intro _; rfl
  | cons q t ih =>
    intro h
    simp only [List.map_cons, List.sum_cons]
    rw [ih (fun x hx => h x (List.mem_cons_of_mem q hx)),
      Int.toNat_of_nonneg (h q (List.mem_cons_self q t))]

theorem sum_floor_le (se : ℚ) (hse : 0 < se) : ∀ (cs : List ℚ),
    ((cs.map (fun c => ⌊c / se⌋)).sum : ℤ) ≤ ⌊cs.sum / se⌋ := by
  intro cs
  induction cs with
  | nil => simp
  | cons c rest ih =>
    simp only [List.map_cons, List.sum_cons]
    have hadd : ⌊c / se⌋ + ⌊rest.sum / se⌋ ≤ ⌊c / se + rest.sum / se⌋ := by
      apply Int.le_floor.mpr
      push_cast
      exact add_le_add (Int.floor_le _) (Int.floor_le _)
    have hsum : c / se + rest.sum / se = (c + rest.sum) / se := by ring
    rw [hsum] at hadd
    omega

theorem floor_sum_le (se : ℚ) (hse : 0 < se) (cs : List ℚ) (hnn : ∀ c ∈ cs, 0 ≤ c) :
    (((cs.map (fun c => ⌊c / se⌋)).foldl (fun (acc : ℕ) q => acc + q.toNat) 0 : ℕ) : ℤ)
      ≤ ⌊cs.sum / se⌋ := by
  rw [foldl_toNat_cast]
  rw [sum_toNat_of_nonneg _ (fun q hq => by
    obtain ⟨c, hc, rfl⟩ := List.mem_map.mp hq
    exact Int.floor_nonneg.mpr (div_nonneg (hnn c hc) (le_of_lt hse)))]
  simpa using sum_floor_le se hse cs

theorem foldl_max_le (B : ℕ) :
    ∀ (l : List ℤ), (∀ q ∈ l, q.toNat ≤ B) → ∀ (a : ℕ), a ≤ B →
      l.foldl (fun acc q => max acc q.toNat) a ≤ B := by
  intro l
  induction l with
  | nil => intro _ a ha; exact ha
  | cons q t ih =>
    intro hl a ha
    simp only [List.foldl_cons]
    exact ih (fun x hx => hl x (List.mem_cons_of_mem q hx)) _
      (max_le ha (hl q (List.mem_cons_self q t)))

theorem member_le_listMax : ∀ (l : List ℚ) (x : ℚ), x ∈ l → x ≤ listMax l := by
  have hfold : ∀ (l : List ℚ) (a : ℚ) (x : ℚ), x ∈ l → x ≤ l.foldr max a := by
    intro l
    induction l with
    | nil => intro a x hx; exact absurd hx (List.not_mem_nil x)
    | cons y t ih =>
      intro a x hx
      rcases List.mem_cons.mp hx with rfl | hmem
      · exact le_max_left x (t.foldr max a)
      · exact le_trans (ih a x hmem) (le_max_right y (t.foldr max a))
  intro l x hx
  exact hfold l (l.headD 0) x hx

theorem floor_anti_overshoot (hw : ℤ) (h1 : 0 < hw) (h2 : hw ≤ 998) :
    ⌊(hw : ℚ) * 1000 / 999⌋ = hw := by
  rw [Int.floor_eq_iff]
  constructor
  · rw [le_div_iff (by norm_num)]
    have hpos : (0 : ℚ) < (hw : ℚ) := by exact_mod_cast h1
    nlinarith [hpos]
  · rw [div_lt_iff (by norm_num)]
    push_cast
    have hlt : (hw : ℚ) < 999 := by exact_mod_cast (by omega : hw < 999)
    nlinarith [hlt]

/-! Index alignment of the zipped bin rows. -/

theorem zip_mem_index {α β : Type} : ∀ (as : List α) (bs : List β) (p : α × β),
    p ∈ List.zip as bs → ∃ i, as.get? i = some p.1 ∧ bs.get? i = some p.2 := by
  intro as
  induction as with
  | nil => intro bs p hp; simp [List.zip] at hp
  | cons a as' ih =>
    intro bs p hp
    cases bs with
    | nil => simp [List.zip] at hp
    | cons b bs' =>
      rcases List.mem_cons.mp hp with rfl | hmem
      · exact ⟨0, rfl, rfl⟩
      · obtain ⟨i, h1, h2⟩ := ih bs' p hmem
        exact ⟨i + 1, h1, h2⟩

theorem zipWith_get? {α β γ : Type} (f : α → β → γ) :
    ∀ (as : List α) (bs : List β) (i : ℕ) (a : α) (b : β),
      as.get? i = some a → bs.get? i = some b →
      (List.zipWith f as bs).get? i = some (f a b) := by
  intro as
  induction as with
  | nil => intro bs i a b ha _; simp at ha
  | cons x as' ih =>
    intro bs i a b ha hb
    cases bs with
    | nil => simp at hb
    | cons y bs' =>
      cases i with
      | zero =>
        cases ha; cases hb; rfl
      | succ j => exact ih bs' j a b ha hb

theorem enumFrom_foldl {α β : Type} (F : β → α → β) :
    ∀ (l : List α) (n : ℕ) (a : β),
      (List.enumFrom n l).foldl (fun acc p => F acc p.2) a = l.foldl F a := by
  intro l
  induction l with
  | nil => intro n a; rfl
  | cons x t ih => intro n a; simp only [List.enumFrom, List.foldl_cons]; exact ih (n + 1) (F a x)

theorem seriesOf_foldl_add (bf : BinFormatter) (heights : List ℤ) (a : ℕ) :
    (bf.seriesOf heights).foldl (fun acc x => acc + x.1.toNat) a
      = heights.foldl (fun acc q => acc + q.toNat) a := by
  unfold BinFormatter.seriesOf
  rw [List.foldl_map]
  exact enumFrom_foldl (fun acc q => acc + q.toNat) heights 0 a

theorem seriesOf_foldl_max (bf : BinFormatter) (heights : List ℤ) (a : ℕ) :
    (bf.seriesOf heights).foldl (fun acc x => max acc x.1.toNat) a
      = heights.foldl (fun acc q => max acc q.toNat) a := by
  unfold BinFormatter.seriesOf
  rw [List.foldl_map]
  exact enumFrom_foldl (fun acc q => max acc q.toNat) heights 0 a

/-! Newline-terminated lines and blocks of the rendered output. -/

/-- A full output line: newline-terminated, no interior newline, visible
width within the bound. -/
def GoodPiece (B : ℕ) (p : String) : Prop :=
  ∃ body, p.data = body ++ ['\n'] ∧ '\n' ∉ body ∧ visAux false body ≤ B

/-- A block that is a concatenation of bounded full lines. -/
def GoodBlock (B : ℕ) (b : String) : Prop :=
  ∃ pieces, (∀ p ∈ pieces, GoodPiece B p) ∧ b = strConcat pieces

theorem pieces_then (B : ℕ) : ∀ (pieces : List String) (X : List Char),
    (∀ p ∈ pieces, GoodPiece B p) → (∀ l ∈ splitLines X, visAux false l ≤ B) →
    ∀ l ∈ splitLines ((strConcat pieces).data ++ X), visAux false l ≤ B := by
  intro pieces
  induction pieces with
  | nil =>
    intro X _ hX l hl
    exact hX l (by simpa [strConcat] using hl)
  | cons p ps ih =>
    intro X hp hX l hl
    obtain ⟨body, hdata, hnl, hvis⟩ := hp p (List.mem_cons_self p ps)
    rw [show (strConcat (p :: ps)).data = p.data ++ (strConcat ps).data from by
      simp [strConcat, String.data_append]] at hl
    rw [hdata] at hl
    rw [show (body ++ ['\n']) ++ (strConcat ps).data ++ X
      = body ++ '\n' :: ((strConcat ps).data ++ X) from by simp] at hl
    rw [splitLines_append_line body hnl] at hl
    rcases List.mem_cons.mp hl with rfl | hmem
    · exact hvis
    · exact ih X (fun q hq => hp q (List.mem_cons_of_mem p hq)) hX l hmem

theorem blocks_splitLines (B : ℕ) : ∀ (blocks : List String),
    (∀ b ∈ blocks, GoodBlock B b) →
    ∀ l ∈ splitLines (strConcat blocks).data, visAux false l ≤ B := by
  intro blocks
  induction blocks with
  | nil =>
    intro _ l hl
    rw [show (strConcat []).data = ([] : List Char) from rfl] at hl
    rcases List.mem_cons.mp hl with rfl | hmem
    · exact Nat.zero_le B
    · exact absurd hmem (List.not_mem_nil l)
  | cons b rest ih =>
    intro hb l hl
    obtain ⟨pieces, hp, rfl⟩ := hb b (List.mem_cons_self b rest)
    rw [show (strConcat (strConcat pieces :: rest)).data
      = (strConcat pieces).data ++ (strConcat rest).data from by
        simp [strConcat, String.data_append]] at hl
    exact pieces_then B pieces (strConcat rest).data hp
      (ih (fun x hx => hb x (List.mem_cons_of_mem _ hx))) l hl

/-! Per-bin bound: the constructed row never exceeds the available width. -/

theorem agg_div_bound (t m w' hw : ℚ) (hm : 0 < m) (hhw : 0 < hw) (hw1 : 0 < w')
    (h : t / w' ≤ m) : t / (m / hw * (999/1000) * w') ≤ hw * 1000 / 999 := by
  rw [div_le_iff (by positivity)]
  have h2 : t ≤ m * w' := by rwa [div_le_iff hw1] at h
  calc t ≤ m * w' := h2
    _ = hw * 1000 / 999 * (m / hw * (999/1000) * w') := by
        field_simp
        ring

theorem line_length_bound (bf2 : BinFormatter) (cnts : List ℚ) (w : ℤ)
    (cp : Option Char) (out : List Hixel) (maxC : ℚ) (hw : ℤ)
    (hscale : bf2.scale = maxC / (hw : ℚ) * (999/1000))
    (hnn : ∀ c ∈ cnts, 0 ≤ c) (hw1 : 1 ≤ w) (hm : 0 < maxC)
    (hhw1 : 0 < hw) (hhw2 : hw ≤ 998)
    (hagg : aggregateOf bf2.stack cnts / (if bf2.count_area then (w : ℚ) else 1) ≤ maxC)
    (hok : buildLine bf2.use_color cp bf2.stack (bf2.seriesOf (bf2.heightsOf cnts w)) [] = .ok out) :
    out.length ≤ hw.toNat := by
  have hwq : (0 : ℚ) < (hw : ℚ) := by exact_mod_cast hhw1
  have hwfac : (0 : ℚ) < (if bf2.count_area then (w : ℚ) else 1) := by
    split
    · exact_mod_cast (by omega : (0 : ℤ) < w)
    · norm_num
  have hspos : 0 < bf2.scale := by rw [hscale]; positivity
  have hppos : 0 < bf2.scale * (if bf2.count_area then (w : ℚ) else 1) :=
    mul_pos hspos hwfac
  have hse_eq : bf2.effectiveScale w = bf2.scale * (if bf2.count_area then (w : ℚ) else 1) := by
    unfold BinFormatter.effectiveScale
    exact if_neg hppos.ne'
  have hse : 0 < bf2.effectiveScale w := by rw [hse_eq]; exact hppos
  have hkey : aggregateOf bf2.stack cnts / bf2.effectiveScale w ≤ (hw : ℚ) * 1000 / 999 := by
    rw [hse_eq, hscale]
    exact agg_div_bound (aggregateOf bf2.stack cnts) maxC
      (if bf2.count_area then (w : ℚ) else 1) (hw : ℚ) hm hwq hwfac hagg
  have hfloor : ⌊aggregateOf bf2.stack cnts / bf2.effectiveScale w⌋ ≤ hw := by
    calc ⌊aggregateOf bf2.stack cnts / bf2.effectiveScale w⌋
        ≤ ⌊(hw : ℚ) * 1000 / 999⌋ := Int.floor_le_floor hkey
      _ = hw := floor_anti_overshoot hw hhw1 hhw2
  have hheights : bf2.heightsOf cnts w = cnts.map (fun c => ⌊c / bf2.effectiveScale w⌋) := rfl
  cases hstack : bf2.stack with
  | true =>
    rw [hstack] at hok
    have hlen := buildLine_length_stack bf2.use_color cp
      (bf2.seriesOf (bf2.heightsOf cnts w)) [] out hok
    rw [seriesOf_foldl_add bf2 (bf2.heightsOf cnts w) (List.length ([] : List Hixel))] at hlen
    rw [hheights] at hlen
    have hsum := floor_sum_le (bf2.effectiveScale w) hse cnts hnn
    have haggsum : aggregateOf bf2.stack cnts = cnts.sum := by
      rw [hstack]
      rfl
    rw [haggsum] at hfloor
    rw [show List.length ([] : List Hixel) = 0 from rfl] at hlen
    omega
  | false =>
    rw [hstack] at hok
    have hlen := buildLine_length_overlay bf2.use_color cp
      (bf2.seriesOf (bf2.heightsOf cnts w)) [] out hok
    rw [seriesOf_foldl_max bf2 (bf2.heightsOf cnts w) (List.length ([] : List Hixel))] at hlen
    rw [hheights] at hlen
    have haggmax : aggregateOf bf2.stack cnts = listMax cnts := by
      rw [hstack]
      rfl
    rw [hlen]
    apply foldl_max_le hw.toNat
    · intro q hq
      obtain ⟨c, hc, rfl⟩ := List.mem_map.mp hq
      have hcle : c ≤ listMax cnts := member_le_listMax cnts c hc
      have hdiv : c / bf2.effectiveScale w ≤ aggregateOf bf2.stack cnts / bf2.effectiveScale w := by
        rw [haggmax]
        exact (div_le_div_right hse).mpr hcle
      have : ⌊c / bf2.effectiveScale w⌋ ≤ hw :=
        le_trans (Int.floor_le_floor hdiv) hfloor
      omega
    · exact Nat.zero_le _

theorem formatBinLine_goodPiece (bf2 : BinFormatter) (tt tb : String)
    (series : List (ℤ × Char × Char × Char)) (cp : Option Char) (w : ℤ) (i : ℕ)
    (piece : String) (A C : ℕ)
    (hcp : cp = none ∨ cp = some ' ' ∨ cp = some '/' ∨ cp = some '\\' ∨ cp = some 'X')
    (htt : (∀ c ∈ tt.data, plainChar c = true) ∧ tt.length = A)
    (htb : (∀ c ∈ tb.data, plainChar c = true) ∧ tb.length = A)
    (hnt : (∀ c ∈ bf2.noTick.data, plainChar c = true) ∧ bf2.noTick.length = A)
    (hline : ∀ out, buildLine bf2.use_color cp bf2.stack series [] = .ok out → out.length ≤ C)
    (hok : bf2.formatBinLine tt tb series cp w i = .ok piece) :
    GoodPiece (A + C) piece := by
  rw [show bf2.formatBinLine tt tb series cp w i = (do
      let line ← buildLine bf2.use_color cp bf2.stack series []
      let rendered ← mapME (fun hx => hx.render true) line
      pure ((if bf2.print_top_edge ∧ i = 0 then tt
        else if ¬bf2.print_top_edge ∧ (i : ℤ) = w - 1 then tb
        else bf2.noTick) ++ strConcat rendered ++ "\n")) from rfl] at hok
  have haxis : (∀ c ∈ (if bf2.print_top_edge ∧ i = 0 then tt
      else if ¬bf2.print_top_edge ∧ (i : ℤ) = w - 1 then tb else bf2.noTick).data,
        plainChar c = true) ∧
      (if bf2.print_top_edge ∧ i = 0 then tt
        else if ¬bf2.print_top_edge ∧ (i : ℤ) = w - 1 then tb else bf2.noTick).length = A := by
    split_ifs
    · exact htt
    · exact htb
    · exact hnt
  set axis := (if bf2.print_top_edge ∧ i = 0 then tt
    else if ¬bf2.print_top_edge ∧ (i : ℤ) = w - 1 then tb else bf2.noTick) with haxdef
  cases hbl : buildLine bf2.use_color cp bf2.stack series [] with
  | error e => rw [hbl] at hok; exact absurd hok (by simp [exBind_error])
  | ok line =>
    rw [hbl] at hok
    simp only [exBind_ok] at hok
    cases hmr : mapME (fun hx => hx.render true) line with
    | error e =>
      rw [hmr] at hok
      exact absurd hok (by simp [exBind_ok, exBind_error, exMap_error])
    | ok rendered =>
      rw [hmr] at hok
      simp only [exBind_ok, exMap_ok, exPure] at hok
      cases hok
      have hgood : ∀ r ∈ rendered, goodCell r := by
        intro r hr
        obtain ⟨hx, hhx, hre⟩ := mapME_ok_forall _ line rendered hmr r hr
        have hwf : WFHixel hx := buildLine_WF bf2.use_color cp bf2.stack hcp series [] line
          (fun h hmem => absurd hmem (List.not_mem_nil h)) hbl hx hhx
        exact render_goodCell hx hwf.1 hwf.2 r hre
      refine ⟨axis.data ++ (strConcat rendered).data, ?_, ?_, ?_⟩
      · simp [String.data_append]
      · intro hmem
        rcases List.mem_append.mp hmem with h1 | h1
        · have := haxis.1 '\n' h1
          simp [plainChar] at this
        · exact cells_no_newline rendered hgood h1
      · have hplain := visAux_plain_append axis.data haxis.1 (strConcat rendered).data
        rw [hplain]
        have hcells := cells_visAux rendered hgood []
        rw [List.append_nil] at hcells
        rw [hcells]
        have hlen1 : axis.data.length = A := haxis.2
        have hlen2 : rendered.length = line.length := mapME_ok_length _ line rendered hmr
        have hlen3 : line.length ≤ C := hline line hbl
        simp only [visAux]
        omega

theorem composeOf_WF (bf : BinFormatter) (n : ℕ) :
    bf.composeOf n = none ∨ bf.composeOf n = some ' ' ∨ bf.composeOf n = some '/' ∨
      bf.composeOf n = some '\\' ∨ bf.composeOf n = some 'X' := by
  unfold BinFormatter.composeOf
  split
  · exact Or.inr (Or.inl rfl)
  · exact Or.inl rfl

theorem zip_get? {α β : Type} : ∀ (as : List α) (bs : List β) (i : ℕ) (p : α × β),
    (List.zip as bs).get? i = some p → as.get? i = some p.1 ∧ bs.get? i = some p.2 := by
  intro as
  induction as with
  | nil => intro bs i p hp; simp [List.zip] at hp
  | cons a as' ih =>
    intro bs i p hp
    cases bs with
    | nil => simp [List.zip] at hp
    | cons b bs' =>
      cases i with
      | zero => cases hp; exact ⟨rfl, rfl⟩
      | succ j => exact ih bs' j p hp

theorem formatBinCore_goodBlock (bf2 : BinFormatter) (tt tb : String)
    (heights : List ℤ) (n : ℕ) (w : ℤ) (block : String) (A C : ℕ)
    (htt : (∀ c ∈ tt.data, plainChar c = true) ∧ tt.length = A)
    (htb : (∀ c ∈ tb.data, plainChar c = true) ∧ tb.length = A)
    (hnt : (∀ c ∈ bf2.noTick.data, plainChar c = true) ∧ bf2.noTick.length = A)
    (hline : ∀ out, buildLine bf2.use_color (bf2.composeOf n) bf2.stack
      (bf2.seriesOf heights) [] = .ok out → out.length ≤ C)
    (hok : bf2.formatBinCore tt tb heights n w = .ok block) :
    GoodBlock (A + C) block := by
  rw [show bf2.formatBinCore tt tb heights n w = (do
      let pieces ← mapME (bf2.formatBinLine tt tb (bf2.seriesOf heights) (bf2.composeOf n) w)
        (List.range w.toNat)
      pure (strConcat pieces)) from rfl] at hok
  cases hmp : mapME (bf2.formatBinLine tt tb (bf2.seriesOf heights) (bf2.composeOf n) w)
      (List.range w.toNat) with
  | error e => rw [hmp] at hok; exact absurd hok (by simp [exBind_error])
  | ok pieces =>
    rw [hmp] at hok
    simp only [exBind_ok, exPure] at hok
    cases hok
    refine ⟨pieces, ?_, rfl⟩
    intro p hp
    obtain ⟨i, _, hpok⟩ := mapME_ok_forall _ _ pieces hmp p hp
    exact formatBinLine_goodPiece bf2 tt tb (bf2.seriesOf heights) (bf2.composeOf n) w i p A C
      (composeOf_WF bf2 n) htt htb hnt hline hpok

/-- C6 as amended: whenever the per-bin row budgets are at least 1, all
per-bin series values are nonnegative, the peak aggregate is positive and
comes from the data (no override), between 1 and 998 columns remain after
the axis, and the configured tick strings are plain text of the declared
width, every line of the rendered bin section fits in the configured column
budget.  The claim as stated (for every input) is false: the counterexample
`hist_column_overshoot` shows that at 1000 available columns the
anti-overshoot factor 0.999 lets the peak bin paint 1001 cells and overflow
the budget (from 1000 columns on, the overshoot of `⌊hw*1000/999⌋` over `hw`
is at least a full column and survives double rounding of the scale).  At
exactly 999 columns this exact-rational model sits on the knife edge
`⌊999*1000/999⌋ = 1000`, one cell over, but the program's double scale
rounds just above the rational value 0.004995... and paints only 999 cells
there, so the proved bound stops at 998. -/
theorem hist_column_bound (hf : HistFormatter) (counts : List (List ℚ))
    (hnn : ∀ col ∈ counts.transpose, ∀ x ∈ col, 0 ≤ x)
    (hbl : ∀ w ∈ hf.bin_lines, 1 ≤ w)
    (hmc : hf.max_count = none)
    (hpeak : 0 < hf.maxC counts)
    (hhw1 : 0 < hf.histWidth) (hhw2 : hf.histWidth ≤ 998)
    (htickf : ∀ q : ℚ, (∀ c ∈ (hf.bf.tickFormat q).data, plainChar c = true) ∧
      (hf.bf.tickFormat q).length = hf.bf.tick_format_width)
    (htm : ∀ c ∈ hf.bf.tick_mark.data, plainChar c = true)
    (hntm : (∀ c ∈ hf.bf.no_tick_mark.data, plainChar c = true) ∧
      hf.bf.no_tick_mark.length = hf.bf.tick_mark.length) :
    linesBound (hf.formatBins counts) hf.columns = true := by
  cases hres : hf.formatBins counts with
  | error e => rfl
  | ok s =>
    have hres2 := hres
    rw [show hf.formatBins counts = (do
        let pieces ← mapME
          (fun r => (hf.scaledBF counts).formatBin r.2.1 r.2.2.1 r.1 r.2.2.2)
          (hf.binRows counts)
        pure (strConcat pieces)) from rfl] at hres2
    cases hmp : mapME
        (fun r => (hf.scaledBF counts).formatBin r.2.1 r.2.2.1 r.1 r.2.2.2)
        (hf.binRows counts) with
    | error e => rw [hmp] at hres2; exact absurd hres2 (by simp [exBind_error])
    | ok blocks =>
      rw [hmp] at hres2
      simp only [exBind_ok, exPure] at hres2
      cases hres2
      have htf2 : (hf.scaledBF counts).tickFormat = hf.bf.tickFormat := rfl
      have htm2 : (hf.scaledBF counts).tick_mark = hf.bf.tick_mark := rfl
      have hticklem : ∀ q : ℚ,
          (∀ c ∈ ((hf.scaledBF counts).tick q).data, plainChar c = true) ∧
          ((hf.scaledBF counts).tick q).length = axisWidthOf hf.bf := by
        intro q
        have hdata : ((hf.scaledBF counts).tick q).data
            = (hf.bf.tickFormat q).data ++ hf.bf.tick_mark.data := by
          unfold BinFormatter.tick
          rw [htf2, htm2, String.data_append]
        constructor
        · intro c hcm
          rw [hdata] at hcm
          rcases List.mem_append.mp hcm with h1 | h1
          · exact (htickf q).1 c h1
          · exact htm c h1
        · have hlen : ((hf.scaledBF counts).tick q).length
              = (hf.bf.tickFormat q).length + hf.bf.tick_mark.length := by
            unfold BinFormatter.tick
            rw [htf2, htm2, String.length_append]
          rw [hlen, (htickf q).2]
          rfl
      have hntlem : (∀ c ∈ (hf.scaledBF counts).noTick.data, plainChar c = true) ∧
          (hf.scaledBF counts).noTick.length = axisWidthOf hf.bf := by
        have hdata : (hf.scaledBF counts).noTick.data
            = List.replicate hf.bf.tick_format_width ' ' ++ hf.bf.no_tick_mark.data := by
          unfold BinFormatter.noTick spacesStr
          rw [String.data_append]
          rfl
        constructor
        · intro c hcm
          rw [hdata] at hcm
          rcases List.mem_append.mp hcm with h1 | h1
          · rw [List.eq_of_mem_replicate h1]
            decide
          · exact hntm.1 c h1
        · have hsp : ∀ n : ℕ, (spacesStr n).length = n := fun n => by
            simp [spacesStr, String.length]
          have hlen : (hf.scaledBF counts).noTick.length
              = hf.bf.tick_format_width + hf.bf.no_tick_mark.length := by
            show (spacesStr hf.bf.tick_format_width ++ hf.bf.no_tick_mark).length
              = hf.bf.tick_format_width + hf.bf.no_tick_mark.length
            rw [String.length_append, hsp]
          rw [hlen, hntm.2]
          rfl
      have hgoodblocks : ∀ b ∈ blocks, GoodBlock (axisWidthOf hf.bf + hf.histWidth.toNat) b := by
        intro b hb
        obtain ⟨r, hr, hbok⟩ := mapME_ok_forall _ _ blocks hmp b hb
        obtain ⟨i, hc1, hc2⟩ := zip_mem_index _ _ r hr
        obtain ⟨_, hc3⟩ := zip_get? _ _ i r.2 hc2
        obtain ⟨_, hc4⟩ := zip_get? _ _ i r.2.2 hc3
        have hwmem : r.2.2.2 ∈ hf.bin_lines := List.get?_mem hc4
        have hw1 : 1 ≤ r.2.2.2 := hbl _ hwmem
        have hcmem : r.1 ∈ counts.transpose := List.get?_mem hc1
        have hcnn : ∀ x ∈ r.1, 0 ≤ x := hnn r.1 hcmem
        have htot : (hf.totContents counts).get? i = some (aggregateOf hf.bf.stack r.1) := by
          unfold HistFormatter.totContents
          rw [List.get?_map, hc1]
          rfl
        have hmaxeq : hf.maxC counts = listMax (hf.cDiv counts) := by
          unfold HistFormatter.maxC
          rw [hmc]
        have haggle : aggregateOf hf.bf.stack r.1
            / (if hf.bf.count_area then (r.2.2.2 : ℚ) else 1) ≤ hf.maxC counts := by
          by_cases hca : hf.bf.count_area = true
          · have hcd : (hf.cDiv counts).get? i
                = some (aggregateOf hf.bf.stack r.1 / ((r.2.2.2 : ℤ) : ℚ)) := by
              unfold HistFormatter.cDiv
              rw [if_pos hca]
              exact zipWith_get? _ _ _ i _ _ htot hc4
            rw [if_pos hca, hmaxeq]
            exact member_le_listMax _ _ (List.get?_mem hcd)
          · have hcd : hf.cDiv counts = hf.totContents counts := by
              unfold HistFormatter.cDiv
              rw [if_neg hca]
            rw [if_neg hca, hmaxeq, hcd]
            have hmem := member_le_listMax _ _ (List.get?_mem htot)
            simpa using hmem
        rw [show (hf.scaledBF counts).formatBin r.2.1 r.2.2.1 r.1 r.2.2.2
          = (hf.scaledBF counts).formatBinCore ((hf.scaledBF counts).tick r.2.1)
            ((hf.scaledBF counts).tick r.2.2.1)
            ((hf.scaledBF counts).heightsOf r.1 r.2.2.2) r.1.length r.2.2.2 from rfl] at hbok
        refine formatBinCore_goodBlock (hf.scaledBF counts) _ _ _ _ _ b
          (axisWidthOf hf.bf) hf.histWidth.toNat
          (hticklem r.2.1) (hticklem r.2.2.1) hntlem ?_ hbok
        intro out hout
        exact line_length_bound (hf.scaledBF counts) r.1 r.2.2.2
          ((hf.scaledBF counts).composeOf r.1.length) out (hf.maxC counts) hf.histWidth
          rfl hcnn hw1 hpeak hhw1 hhw2 haggle hout
      show ((splitLines (strConcat blocks).data).all
        (fun l => decide ((visAux false l : ℤ) ≤ hf.columns))) = true
      rw [List.all_eq_true]
      intro l hl
      rw [decide_eq_true_eq]
      have hvis := blocks_splitLines (axisWidthOf hf.bf + hf.histWidth.toNat) blocks hgoodblocks l hl
      have htw : (hf.histWidth.toNat : ℤ) = hf.histWidth := Int.toNat_of_nonneg (le_of_lt hhw1)
      have hcols : hf.columns = (axisWidthOf hf.bf : ℤ) + hf.histWidth := by
        unfold HistFormatter.histWidth
        ring
      calc (visAux false l : ℤ)
          ≤ ((axisWidthOf hf.bf + hf.histWidth.toNat : ℕ) : ℤ) := by exact_mod_cast hvis
        _ = (axisWidthOf hf.bf : ℤ) + hf.histWidth := by push_cast; omega
        _ = hf.columns := hcols.symm

/-! Concrete overshoot instance for the column bound. -/

/-- The plain configuration with the data-dependent scale `(5/1)/1000 * 0.999
= 999/200000` installed, exactly as `format_histogram` computes it for counts
`[[5]]` at 1000 available columns. -/
def bfScaled : BinFormatter := { bfPlain with scale := 999/200000 }

/-- The cell produced by every mark of the single `|` series. -/
def hixBar : Hixel :=
  { character := '|', compose := none, fg_color := '0', bg_color := '0', use_color := false }

theorem hixBar_mk : mkHixel '|' '0' '0' false none = .ok hixBar := rfl

theorem hixBar_render : hixBar.render true = .ok "│" := rfl

theorem goodCell_bar : goodCell "│" := by
  constructor
  · intro rest
    show visAux false ('│' :: rest) = 1 + visAux false rest
    simp [visAux, zeroWidthChar]
  · decide

theorem buildLine_bar : buildLine false none false [((1001 : ℤ), '|', '0', '0')] []
    = .ok (List.replicate 1001 hixBar) := by
  have hstep : buildLineStep false none false [] ((1001 : ℤ), '|', '0', '0')
      = .ok (List.replicate 1001 hixBar) := by
    unfold buildLineStep
    dsimp only
    rw [if_pos (by decide : ((1001 : ℤ) ≠ 0))]
    rw [if_pos (by decide : (1001 : ℤ) > (([] : List Hixel).length : ℤ))]
    rw [show mapME (fun x => Hixel.add x '|' '0' '0') ([] : List Hixel) = .ok [] from rfl]
    rw [hixBar_mk]
    simp only [exBind_ok, exMap_ok, exPure]
    rw [show (Int.toNat 1001 - List.length ([] : List Hixel)) = 1001 from by decide]
    rfl
  show (match buildLineStep false none false [] ((1001 : ℤ), '|', '0', '0') with
    | Except.error e => Except.error e
    | Except.ok line2 => buildLine false none false [] line2) = _
  rw [hstep]
  rfl

theorem hfParam_bin_lines (cols : ℤ) : (hfParam cols).bin_lines = [1] := by
  have hu : histUsableLines 2 "" false [""] = 1 := by decide
  have hl : lineScaleOf [0, 1] true 1 = 999/1000 := by
    rw [show lineScaleOf [0, 1] true 1 =
      (if ((1 : ℚ) - 0) / ((1 : ℤ) : ℚ) * (999/1000) = 0 then 1
       else ((1 : ℚ) - 0) / ((1 : ℤ) : ℚ) * (999/1000)) from rfl]
    rw [if_neg (by norm_num)]
    norm_num
  have hfl : ⌊((1 : ℚ) - 0) / (999/1000)⌋ = 1 := by
    rw [Int.floor_eq_iff] <;> norm_num
  rw [show (hfParam cols).bin_lines =
    binLinesOf [0, 1] (lineScaleOf [0, 1] true (histUsableLines 2 "" false [""])) from rfl]
  rw [hu, hl]
  unfold binLinesOf binWidths
  simp only [List.zipWith, List.tail_cons, List.map, hfl]
  norm_num

theorem hfParam_maxC (cols : ℤ) : (hfParam cols).maxC [[5]] = 5 / ((1 : ℤ) : ℚ) := by
  have hlm : listMax [(5 : ℚ)] = 5 := by simp [listMax]
  have hcd : (hfParam cols).cDiv [[5]] = [5 / ((1 : ℤ) : ℚ)] := by
    have hstep : (hfParam cols).cDiv [[5]] =
        List.zipWith (fun t (w : ℤ) => t / (w : ℚ)) ((hfParam cols).totContents [[5]]) (hfParam cols).bin_lines := by
      unfold HistFormatter.cDiv
      exact if_pos (show (hfParam cols).bf.count_area = true from rfl)
    rw [hstep, hfParam_bin_lines,
      show (hfParam cols).totContents [[5]] = [listMax [(5 : ℚ)]] from rfl, hlm]
    simp
  rw [show (hfParam cols).maxC [[5]] = listMax ((hfParam cols).cDiv [[5]]) from rfl, hcd]
  simp [listMax]

theorem hfOvershoot_scaledBF : hfOvershoot.scaledBF [[5]] = bfScaled := by
  have h2 : hfOvershoot.binScale [[5]] = 999/200000 := by
    unfold HistFormatter.binScale
    rw [show hfOvershoot.maxC [[5]] = (hfParam 1009).maxC [[5]] from rfl, hfParam_maxC,
      show hfOvershoot.histWidth = 1000 from by decide]
    norm_num
  unfold HistFormatter.scaledBF bfScaled
  rw [h2]
  rfl

theorem bfScaled_heights : bfScaled.heightsOf [5] 1 = [1001] := by
  have he : bfScaled.effectiveScale 1 = 999/200000 := by
    rw [show bfScaled.effectiveScale 1 =
      (if (999/200000 : ℚ) * ((1 : ℤ) : ℚ) = 0 then 1 else (999/200000 : ℚ) * ((1 : ℤ) : ℚ)) from rfl]
    rw [if_neg (by norm_num)]
    norm_num
  unfold BinFormatter.heightsOf
  rw [he]
  simp only [List.map]
  rw [show ⌊(5 : ℚ) / (999/200000 : ℚ)⌋ = 1001 from by rw [Int.floor_eq_iff] <;> norm_num]

set_option maxRecDepth 8000 in
theorem bfScaled_line0 :
    bfScaled.formatBinLine "  1.000 _" "  1.000 _" [((1001 : ℤ), '|', '0', '0')] none 1 0
    = .ok ("  1.000 _" ++ strConcat (List.replicate 1001 "│") ++ "\n") := by
  show (do
    let line ← buildLine false none false [((1001 : ℤ), '|', '0', '0')] []
    let rendered ← mapME (fun hx : Hixel => Hixel.render hx true) line
    pure ("  1.000 _" ++ strConcat rendered ++ "\n"))
    = Except.ok ("  1.000 _" ++ strConcat (List.replicate 1001 "│") ++ "\n")
  rw [buildLine_bar]
  simp only [exBind_ok]
  rw [mapME_replicate (fun hx => Hixel.render hx true) hixBar "│" hixBar_render 1001]
  simp only [exBind_ok, exPure]

theorem bfScaled_core :
    bfScaled.formatBinCore "  1.000 _" "  1.000 _" [1001] 1 1
    = .ok ("  1.000 _" ++ strConcat (List.replicate 1001 "│") ++ "\n") := by
  show (do
    let pieces ← mapME (bfScaled.formatBinLine "  1.000 _" "  1.000 _"
      [((1001 : ℤ), '|', '0', '0')] none 1) [0]
    pure (strConcat pieces))
    = Except.ok ("  1.000 _" ++ strConcat (List.replicate 1001 "│") ++ "\n")
  simp only [mapME]
  rw [bfScaled_line0]
  simp only [exBind_ok, exPure]
  rw [strConcat_single]

theorem bfScaled_formatBin (t b : ℚ) :
    bfScaled.formatBin t b [5] 1
    = .ok ("  1.000 _" ++ strConcat (List.replicate 1001 "│") ++ "\n") := by
  have htick : ∀ q : ℚ, bfScaled.tick q = "  1.000 _" := fun _ => rfl
  unfold BinFormatter.formatBin
  rw [bfScaled_heights, htick t, htick b]
  exact bfScaled_core

theorem hfOvershoot_formatBins :
    hfOvershoot.formatBins [[5]]
    = .ok ("  1.000 _" ++ strConcat (List.replicate 1001 "│") ++ "\n") := by
  have h4 : hfOvershoot.binRows [[5]]
      = [([(5 : ℚ)], (0 : ℚ) / (10 : ℚ) ^ hfOvershoot.commonExp,
          (1 : ℚ) / (10 : ℚ) ^ hfOvershoot.commonExp, (1 : ℤ))] := by
    unfold HistFormatter.binRows HistFormatter.topEdges HistFormatter.bottomEdges
    rw [show hfOvershoot.bin_lines = (hfParam 1009).bin_lines from rfl, hfParam_bin_lines]
    rfl
  show (do
    let pieces ← mapME
      (fun r : List ℚ × ℚ × ℚ × ℤ =>
        (hfOvershoot.scaledBF [[5]]).formatBin r.2.1 r.2.2.1 r.1 r.2.2.2)
      (hfOvershoot.binRows [[5]])
    pure (strConcat pieces))
    = Except.ok ("  1.000 _" ++ strConcat (List.replicate 1001 "│") ++ "\n")
  rw [h4]
  simp only [mapME]
  rw [hfOvershoot_scaledBF, bfScaled_formatBin]
  simp only [exBind_ok, exPure]
  rw [strConcat_single]

/-- C6 counterexample: with a column budget of 1009, the layout reserves 9
axis columns and leaves 1000 histogram columns, but the data-dependent scale
`peak / 1000 * 0.999` lets the peak bin paint `⌊peak/scale⌋ = 1001` cells, so
the rendered bin line is `9 + 1001 = 1010` visible columns wide and exceeds
the configured budget. -/
theorem hist_column_overshoot :
    hfOvershoot.columns = 1009 ∧
    linesBound (hfOvershoot.formatBins [[5]]) hfOvershoot.columns = false := by
  refine ⟨rfl, ?_⟩
  have hc : ∀ c ∈ List.replicate 1001 "│", goodCell c := by
    intro c hcm
    rw [List.eq_of_mem_replicate hcm]
    exact goodCell_bar
  have hnl : '\n' ∉ ("  1.000 _".data ++ (strConcat (List.replicate 1001 "│")).data) := by
    intro hmem
    rcases List.mem_append.mp hmem with h | h
    · exact absurd h (by decide)
    · exact cells_no_newline _ hc h
  have hvis : visAux false ("  1.000 _".data ++ (strConcat (List.replicate 1001 "│")).data)
      = 1010 := by
    have h9 := visAux_plain_append ("  1.000 _".data) (by decide)
      ((strConcat (List.replicate 1001 "│")).data)
    have h1000 := cells_visAux (List.replicate 1001 "│") hc []
    rw [List.append_nil] at h1000
    rw [h9, h1000, List.length_replicate]
    decide
  rw [show hfOvershoot.columns = (1009 : ℤ) from rfl, hfOvershoot_formatBins]
  show (splitLines ("  1.000 _" ++ strConcat (List.replicate 1001 "│") ++ "\n").data).all
      (fun l => decide ((visAux false l : ℤ) ≤ 1009)) = false
  rw [show ("  1.000 _" ++ strConcat (List.replicate 1001 "│") ++ "\n").data
      = ("  1.000 _".data ++ (strConcat (List.replicate 1001 "│")).data) ++ '\n' :: [] from by
    rw [String.data_append, String.data_append]]
  rw [splitLines_append_line _ hnl]
  rw [show splitLines [] = [[]] from rfl]
  simp only [List.all_cons, List.all_nil]
  rw [hvis]
  decide

/-- C6 witness: the amended column bound applied at a concrete histogram
(column budget 11, 2 histogram columns after the 9-column axis, peak 5). -/
theorem hist_column_bound_witness :
    linesBound ((hfParam 11).formatBins [[5]]) (hfParam 11).columns = true :=
  hist_column_bound (hfParam 11) [[5]]
    (by
      rw [show ([[(5 : ℚ)]] : List (List ℚ)).transpose = [[(5 : ℚ)]] from rfl]
      intro col hcol x hx
      rw [List.mem_singleton] at hcol
      subst hcol
      rw [List.mem_singleton] at hx
      subst hx
      norm_num)
    (by
      rw [hfParam_bin_lines]
      intro w hw
      rw [List.mem_singleton] at hw
      omega)
    rfl
    (by rw [hfParam_maxC]; norm_num)
    (by decide)
    (by decide)
    (fun _ => ⟨show ∀ c ∈ ("  1.000 " : String).data, plainChar c = true from by decide, rfl⟩)
    (by decide)
    ⟨by decide, rfl⟩
